import Mathlib

/-!
# Verification of the occupancy-carving engine of `peopleremover.cc`

This file is a shallow embedding of the core of
`src/peopleremover/peopleremover.cc` (3DTK) into Lean 4, together with
theorems settling the specification claims about it.

Modelling conventions:
* `double` values are embedded as rationals (`ℚ`); the C code's arithmetic on
  them (`+`, `-`, `*`, `/`, `fmod`, comparisons) is exact in this model.
* `ssize_t` is embedded as `ℤ`, `size_t` as `ℕ` (with C's wrapping
  subtraction `current_slice - diff` modelled by the explicit underflow
  guard that the source itself carries).
* `std::numeric_limits<double>::infinity()` is embedded with `WithTop`.
* External collaborators that are not part of this translation unit
  (`Len`/`Normalize3` from slam6d, `calculateNormal`, the spherical
  quadtree `search`, the rigid transforms) are taken as opaque function
  parameters, exactly as the spec designates them black boxes.
* The mutable visitor state threaded through `void *data` is modelled by
  explicit state passing (`σ`).
-/

/-! ## Euclidean division and modulo (`py_div` / `py_mod`)

C's conversion `ssize_t q = a/b` truncates toward zero; `fmod` returns the
remainder with the sign of the dividend.  We embed both and then the two
source functions on top of them. -/

/-- Truncation of a rational toward zero, as C's `double`→`ssize_t` cast. -/
def rtrunc (q : ℚ) : ℤ := if 0 ≤ q then ⌊q⌋ else ⌈q⌉

/-- C's `fmod a b = a - b * trunc (a / b)` (remainder with the dividend's sign). -/
def fmodQ (a b : ℚ) : ℚ := a - b * rtrunc (a / b)

/-- `py_div` from the source: truncating division corrected to floor division. -/
def py_div (a b : ℚ) : ℤ :=
  let q : ℤ := rtrunc (a / b)
  let r : ℚ := fmodQ a b
  if r ≠ 0 ∧ ¬((r < 0) ↔ (b < 0)) then q - 1 else q

/-- `py_mod` from the source: `fmod` corrected to the Euclidean modulo. -/
def py_mod (a b : ℚ) : ℚ :=
  let r : ℚ := fmodQ a b
  if r ≠ 0 ∧ ¬((r < 0) ↔ (b < 0)) then r + b else r


/-! ## Voxels and the voxelizer -/

/-- `struct voxel`: a triple of signed cell coordinates, indexed by axis. -/
abbrev Voxel : Type := Fin 3 → ℤ

/-- A 3D point with rational (exact `double`) coordinates. -/
abbrev Pt3 : Type := Fin 3 → ℚ

/-- `voxel_of_point`: componentwise floor division by the voxel size. -/
def voxel_of_point (p : Pt3) (voxel_size : ℚ) : Voxel :=
  fun i => py_div (p i) voxel_size

/-! ## The carving visitor (sliding-window policy)

`visitor()` from the source.  The occupancy index
`voxel_occupied_by_slice` is a partial map from voxels to the (ordered) set
of scan indices; the mutable `empty_voxels` destination set is threaded
explicitly.  The result's boolean is the C return value: `true` = continue
walking, `false` = stop. -/

def visitor (occ : Voxel → Option (Finset ℕ)) (current_slice diff : ℕ)
    (v : Voxel) (empty_voxels : Finset Voxel) : Finset Voxel × Bool :=
  match occ v with
  | none => (empty_voxels, true)
  | some scanslices =>
    if diff = 0 then
      if current_slice ∈ scanslices then (empty_voxels, false)
      else (insert v empty_voxels, true)
    else
      -- window_start with the explicit unsigned-underflow guard of the source;
      -- over ℕ this is exactly truncated subtraction
      let window_start : ℕ := if diff > current_slice then 0 else current_slice - diff
      let above : Finset ℕ := scanslices.filter (fun m => window_start ≤ m)
      if h : above.Nonempty then
        if above.min' h ≤ current_slice + diff then (empty_voxels, false)
        else (insert v empty_voxels, true)
      else (insert v empty_voxels, true)

/-! ## Scan-range option validation -/

/-- The three `std::logic_error` checks on `start`/`end` in `main`. -/
def check_start_end (start «end» : ℤ) : Except String Unit :=
  if start < 0 then .error "Cannot start at a negative scan number."
  else if «end» < -1 then .error "Cannot end at a negative scan number."
  else if 0 < «end» ∧ «end» < start then
    .error ("<end> (" ++ toString «end» ++ ") cannot be smaller than <start> (" ++
      toString start ++ ").")
  else .ok ()

/-! ## The ray walker (`walk_voxels`)

The Amanatides-Woo 3D-DDA from the source.  Per-axis state is collected in
`AxisState`; the fields `tMax`/`maxMult` are meaningful only for axes with
`step ≠ 0` — for the others the source keeps the constants at `+∞`, which we
reproduce through the `WithTop` views `tMaxW`/`maxMultW` below.  The loop
counter trick of the source (recomputing `tMax = tMaxStart + mult * tDelta`
instead of accumulating) is kept literally. -/

structure AxisState where
  step : ℤ
  tDelta : ℚ
  tMax : ℚ
  tMaxStart : ℚ
  maxMult : ℤ
  sc : ℤ
  mult : ℕ
deriving DecidableEq

/-- Per-axis initialisation, lines 215-262 of the source, including the
corner correction that shifts `cur_voxel`/`start_voxel`/`maxMult` down by
one when a negative-going axis starts exactly on a cell boundary. -/
def setupAxis (sa ea voxel_size : ℚ) : AxisState :=
  let dir : ℚ := ea - sa
  let sc : ℤ := py_div sa voxel_size
  let ec : ℤ := py_div ea voxel_size
  if dir = 0 then
    { step := 0, tDelta := 0, tMax := 0, tMaxStart := 0, maxMult := 0, sc := sc, mult := 0 }
  else
    let step : ℤ := if 0 < dir then 1 else -1
    let tDelta : ℚ := (step : ℚ) * voxel_size / dir
    let tMax : ℚ := tDelta * (1 - py_mod ((step : ℚ) * (sa / voxel_size)) 1)
    let maxMult : ℤ := (ec - sc) * step
    if step = -1 ∧ tMax = tDelta ∧ sc ≠ ec then
      { step := step, tDelta := tDelta, tMax := tMax, tMaxStart := tMax,
        maxMult := maxMult - 1, sc := sc - 1, mult := 0 }
    else
      { step := step, tDelta := tDelta, tMax := tMax, tMaxStart := tMax,
        maxMult := maxMult, sc := sc, mult := 0 }

/-- The `tMax` constant as the source's `double`: `+∞` on axes with `dir = 0`. -/
def tMaxW (a : AxisState) : WithTop ℚ := if a.step = 0 then ⊤ else (a.tMax : WithTop ℚ)

/-- The `maxMult` constant as the source's `double`: `+∞` on axes with `dir = 0`. -/
def maxMultW (a : AxisState) : WithTop ℤ :=
  if a.step = 0 then ⊤ else (a.maxMult : WithTop ℤ)

/-- The voxel coordinate maintained by the loop:
`cur_voxel.x = start_voxel.x + multX * stepX`. -/
def curOf (axes : Fin 3 → AxisState) : Voxel :=
  fun i => (axes i).sc + (axes i).mult * (axes i).step

/-- One delivery of a voxel to the visitor.  `t` is the crossing parameter
`minVal` of the iteration that emitted it (`0` for the two deliveries made
before the loop); `kind` is `0` for those initial deliveries, `1` for the
"graced" corner voxel, `2` for the regular per-iteration delivery; `resp`
records the visitor's return value. -/
structure Visit where
  vox : Voxel
  t : WithTop ℚ
  kind : ℕ
  resp : Bool

/-- Advance the stepped axis: `mult += 1; tMax = tMaxStart + mult * tDelta`. -/
def stepAxis (a : AxisState) : AxisState :=
  { a with mult := a.mult + 1, tMax := a.tMaxStart + (a.mult + 1 : ℕ) * a.tDelta }

/-- The corner-repair bounds check for one axis (source lines 322-351):
`none` means `break`, `some d` means "add `d` (0 or 1) to this coordinate of
`add_voxel`". -/
def graceCheckAxis (a : AxisState) (stepped : Bool) : Option ℤ :=
  if stepped then
    if a.step < 0 then
      if ((a.mult : ℤ) : WithTop ℤ) > maxMultW a + 1 then none else some 1
    else
      if ((a.mult : ℤ) : WithTop ℤ) > maxMultW a then none else some 0
  else some 0

/-- The post-grace termination test (source lines 361-369): some stepped
axis overran its `maxMult`. -/
def overranAxis (a : AxisState) (stepped : Bool) : Prop :=
  stepped = true ∧ ((a.mult : ℤ) : WithTop ℤ) > maxMultW a

instance (a : AxisState) (st : Bool) : Decidable (overranAxis a st) := by
  unfold overranAxis; infer_instance

/-- The `minVal` of one loop iteration: the smallest of the three `tMax`
values (`+∞` on inactive axes). -/
def minValOf (axes : Fin 3 → AxisState) : WithTop ℚ :=
  min (min (tMaxW (axes 0)) (tMaxW (axes 1))) (tMaxW (axes 2))

/-- Which axes step in this iteration: those whose `tMax` equals `minVal`. -/
def steppedOf (axes : Fin 3 → AxisState) (i : Fin 3) : Bool :=
  decide (tMaxW (axes i) = minValOf axes)

/-- The per-axis state after one iteration: stepped axes advance. -/
def stepUpdate (axes : Fin 3 → AxisState) : Fin 3 → AxisState :=
  fun i => if steppedOf axes i then stepAxis (axes i) else axes i

/-- The body of the `while (1)` loop of `walk_voxels` (source lines
285-373).  Returns the visitor state, the deliveries of this iteration and
`some` updated axes to continue with — or `none` when the loop `break`s. -/
def loopBody {σ : Type} (visit : Voxel → σ → σ × Bool)
    (axes : Fin 3 → AxisState) (st : σ) :
    σ × List Visit × Option (Fin 3 → AxisState) :=
  let minVal : WithTop ℚ := minValOf axes
  let stepped : Fin 3 → Bool := steppedOf axes
  let axes' : Fin 3 → AxisState := stepUpdate axes
  let cur : Voxel := curOf axes'
  -- the corner-repair block, lines 314-356
  let graceB : Bool :=
    ((stepped 0 && stepped 1) || (stepped 1 && stepped 2) || (stepped 0 && stepped 2)) &&
    (decide ((axes' 0).step = 1) || decide ((axes' 1).step = 1) ||
      decide ((axes' 2).step = 1)) &&
    (decide ((axes' 0).step = -1) || decide ((axes' 1).step = -1) ||
      decide ((axes' 2).step = -1))
  if graceB then
    match graceCheckAxis (axes' 0) (stepped 0), graceCheckAxis (axes' 1) (stepped 1),
          graceCheckAxis (axes' 2) (stepped 2) with
    | some d0, some d1, some d2 =>
      let add_voxel : Voxel := fun i => cur i + ![d0, d1, d2] i
      let res := visit add_voxel st
      if res.2 then
        -- continue to the termination checks and the regular delivery
        if overranAxis (axes' 0) (stepped 0) ∨ overranAxis (axes' 1) (stepped 1) ∨
            overranAxis (axes' 2) (stepped 2) then
          (res.1, [⟨add_voxel, minVal, 1, true⟩], none)
        else
          let res2 := visit cur res.1
          if res2.2 then
            (res2.1, [⟨add_voxel, minVal, 1, true⟩, ⟨cur, minVal, 2, true⟩], some axes')
          else
            (res2.1, [⟨add_voxel, minVal, 1, true⟩, ⟨cur, minVal, 2, false⟩], none)
      else
        (res.1, [⟨add_voxel, minVal, 1, false⟩], none)
    | _, _, _ => (st, [], none)  -- break inside the corner-repair block: no delivery
  else
    if overranAxis (axes' 0) (stepped 0) ∨ overranAxis (axes' 1) (stepped 1) ∨
        overranAxis (axes' 2) (stepped 2) then
      (st, [], none)
    else
      let res2 := visit cur st
      if res2.2 then
        (res2.1, [⟨cur, minVal, 2, true⟩], some axes')
      else
        (res2.1, [⟨cur, minVal, 2, false⟩], none)

/-- The `while (1)` loop: iterate `loopBody` until it `break`s, with
explicit fuel (the source loop always terminates; `walkFuel` below always
suffices on the states reachable from `setupAxis`). -/
def walkLoop {σ : Type} (visit : Voxel → σ → σ × Bool) :
    ℕ → (Fin 3 → AxisState) → σ → σ × List Visit
  | 0, _, st => (st, [])
  | fuel + 1, axes, st =>
    match loopBody visit axes st with
    | (st', es, none) => (st', es)
    | (st', es, some axes') =>
      let rest := walkLoop visit fuel axes' st'
      (rest.1, es ++ rest.2)

/-- All three per-axis initialisations. -/
def setupAxes (start_pos end_pos : Pt3) (voxel_size : ℚ) : Fin 3 → AxisState :=
  fun i => setupAxis (start_pos i) (end_pos i) voxel_size

/-- "Any delivery answered *stop* is the last delivery": the property the
loop (but not the pre-loop code) of `walk_voxels` guarantees. -/
def StopLast (l : List Visit) : Prop :=
  ∀ (pre : List Visit) (mid : Visit) (post : List Visit),
    l = pre ++ mid :: post → mid.resp = false → post = []

/-- Fuel that always suffices for the loop: one iteration per possible step
plus slack (each loop iteration increments at least one `mult`, and any
`mult` reaching `maxMult + 1` ends the loop in that same iteration). -/
def walkFuel (axes : Fin 3 → AxisState) : ℕ :=
  (axes 0).maxMult.toNat + (axes 1).maxMult.toNat + (axes 2).maxMult.toNat + 4

/-- `walk_voxels` from the source: early return on a zero direction (no
delivery at all), the unconditional delivery of the start voxel, the
unconditional delivery of the (possibly corner-corrected) current voxel,
then the traversal loop. -/
def walk_voxels {σ : Type} (start_pos end_pos : Pt3) (voxel_size : ℚ)
    (visit : Voxel → σ → σ × Bool) (st : σ) : σ × List Visit :=
  if (end_pos 0 - start_pos 0 = 0) ∧ (end_pos 1 - start_pos 1 = 0) ∧
      (end_pos 2 - start_pos 2 = 0) then
    (st, [])
  else
    let start_voxel : Voxel := voxel_of_point start_pos voxel_size
    let end_voxel : Voxel := voxel_of_point end_pos voxel_size
    let res0 := visit start_voxel st
    if start_voxel = end_voxel then
      (res0.1, [⟨start_voxel, 0, 0, res0.2⟩])
    else
      let axes : Fin 3 → AxisState := setupAxes start_pos end_pos voxel_size
      let cur : Voxel := curOf axes
      let res1 := visit cur res0.1
      if cur = end_voxel then
        (res1.1, [⟨start_voxel, 0, 0, res0.2⟩, ⟨cur, 0, 0, res1.2⟩])
      else
        let rest := walkLoop visit (walkFuel axes) axes res1.1
        (rest.1, ⟨start_voxel, 0, 0, res0.2⟩ :: ⟨cur, 0, 0, res1.2⟩ :: rest.2)

/-! ## The carving phase, classifier and output (lines 822-933)

The per-scan loop walks one ray per point into a scan-local free set, the
sets are merged (`omp critical`) into the global `free_voxels`, and the
output writers classify each point by a single lookup of its voxel in
`free_voxels`.  The possibly maxrange-truncated world endpoints of the rays
are taken as an input (`ray_ends`), since their computation uses the
external `Len`/`transform3`. -/

/-- The scan-local free set accumulated by walking every ray of scan `i`
(source lines 833-857). -/
def scanFree (occ : Voxel → Option (Finset ℕ)) (voxel_size : ℚ) (diff : ℕ)
    (scan_pos : Pt3) (ray_ends : List Pt3) (i : ℕ) : Finset Voxel :=
  ray_ends.foldl
    (fun acc pe => (walk_voxels scan_pos pe voxel_size (visitor occ i diff) acc).1) ∅

/-- `voxel::operator<`: lexicographic comparison on `(x, y, z)`, as `≤`. -/
def voxelLe (a b : Voxel) : Prop :=
  a 0 < b 0 ∨ (a 0 = b 0 ∧ (a 1 < b 1 ∨ (a 1 = b 1 ∧ a 2 ≤ b 2)))

instance : DecidableRel voxelLe := fun a b => by unfold voxelLe; infer_instance

instance : IsTrans Voxel voxelLe where
  trans a b c hab hbc := by unfold voxelLe at hab hbc ⊢; omega

instance : IsAntisymm Voxel voxelLe where
  antisymm a b hab hba := by
    unfold voxelLe at hab hba
    have h0 : a 0 = b 0 := by omega
    have h1 : a 1 = b 1 := by omega
    have h2 : a 2 = b 2 := by omega
    funext i
    fin_cases i
    · exact h0
    · exact h1
    · exact h2

instance : IsTotal Voxel voxelLe where
  total a b := by unfold voxelLe; omega

/-- The `omp critical` merge loop: insert the scan-local set element by
element, in the iteration (ascending) order of the `std::set`
(source lines 861-863). -/
def mergeFree (acc s : Finset Voxel) : Finset Voxel :=
  (s.sort voxelLe).foldl (fun a v => insert v a) acc

/-- The whole carving phase: per-scan free sets merged into `free_voxels`. -/
def carve (occ : Voxel → Option (Finset ℕ)) (voxel_size : ℚ) (diff : ℕ)
    (pos : ℕ → Pt3) (ray_ends : ℕ → List Pt3) (scanorder : List ℕ) : Finset Voxel :=
  scanorder.foldl
    (fun acc i => mergeFree acc (scanFree occ voxel_size diff (pos i) (ray_ends i) i)) ∅

/-- One output line of `scan000.3d`/`scan001.3d`: `x y z r` where the
fourth field is the literal `0.0f` of the source (the reflectance argument
is commented out there). -/
def outLine (p : Pt3) : ℚ × ℚ × ℚ × ℚ := (p 0, p 1, p 2, 0)

/-- The partition writer (source lines 884-912): every point of every scan
goes to the static file if its voxel is not free, else to the dynamic file.
The ingested reflectance array is passed in but — exactly as in the source —
never read. -/
def writePartitioning (points : ℕ → List Pt3) (_reflectances : ℕ → List ℚ)
    (voxel_size : ℚ) (free : Finset Voxel) (scanorder : List ℕ) :
    List (ℚ × ℚ × ℚ × ℚ) × List (ℚ × ℚ × ℚ × ℚ) :=
  scanorder.foldl
    (fun acc i =>
      (points i).foldl
        (fun acc2 p =>
          if voxel_of_point p voxel_size ∈ free then (acc2.1, acc2.2 ++ [outLine p])
          else (acc2.1 ++ [outLine p], acc2.2)) acc)
    ([], [])

/-- The mask writer for one scan (source lines 925-931): one `0`/`1` line
per input point, in input order. -/
def maskLines (points : ℕ → List Pt3) (voxel_size : ℚ) (free : Finset Voxel)
    (i : ℕ) : List ℕ :=
  (points i).map (fun p => if voxel_of_point p voxel_size ∈ free then 1 else 0)

/-! ## The `normals` max-range phase (lines 655-816)

Per scan: distances are precomputed, indices are sorted ascending by
distance (`std::stable_sort`), then every seed point gets a stop plane and
propagates a range limit into its angular shadow.  The external black boxes
(`Len`, `Normalize3`, `calculateNormal`, `qtree.search`, and the square
root in `voxel_diagonal`) enter as opaque fields of `NormalsCtx`; every
comparison, clamp, guard and `exit(1)` of the source is modelled exactly.
`+∞` entries of `maxranges` are `⊤`; a phase abort (`exit(1)`) is `none`. -/

structure NormalsCtx where
  dist : ℕ → ℚ
  origPt : ℕ → Pt3
  pnorm : ℕ → Pt3
  rawNormal : ℕ → Pt3
  shadow : ℕ → List ℕ
  voxel_diagonal : ℚ
  fuzz : ℚ

/-- Dot product of two 3-vectors, written out as in the source. -/
def dot3 (u w : Pt3) : ℚ := u 0 * w 0 + u 1 * w 1 + u 2 * w 2

/-- Lines 721-727: flip the normal toward the scanner when `angle_cos ≥ 0`. -/
def orientNormal (nrm p_norm : Pt3) : Pt3 :=
  if 0 ≤ dot3 nrm p_norm then (fun k => -(nrm k)) else nrm

/-- Lines 782-814: one shadow neighbour `k` of the current seed.  Skips on a
perpendicular line of sight or a neighbour in front of the plane; otherwise
clamps the candidate at `0` and keeps the minimum. -/
def processShadowPoint (dividend : ℚ) (nrm : Pt3) (c : NormalsCtx)
    (mr : ℕ → WithTop ℚ) (k : ℕ) : ℕ → WithTop ℚ :=
  let divisor : ℚ := dot3 (c.pnorm k) nrm
  if divisor = 0 then mr
  else
    let d : ℚ := dividend / divisor
    if d > c.dist k then mr
    else
      let d2 : ℚ := if d < 0 then 0 else d
      if mr k < (d2 : WithTop ℚ) then mr else Function.update mr k (d2 : WithTop ℚ)

/-- Lines 675-815: one seed point `j` of the sorted iteration.  `none`
models the `exit(1)` aborts (range past the point's distance; point closer
to the scanner than a voxel diagonal). -/
def processSeed (c : NormalsCtx) (mr : ℕ → WithTop ℚ) (j : ℕ) :
    Option (ℕ → WithTop ℚ) :=
  if mr j ≠ ⊤ then some mr
  else
    let p : Pt3 := c.origPt j
    let p_norm : Pt3 := c.pnorm j
    let nrm : Pt3 := orientNormal (c.rawNormal j) p_norm
    let p_base : Pt3 := fun k => p k + nrm k * (c.voxel_diagonal + c.fuzz)
    let dividend : ℚ := dot3 p_base nrm
    let divisor : ℚ := dot3 p_norm nrm
    if divisor = 0 then some (Function.update mr j (0 : ℚ))
    else if dividend / divisor > c.dist j then none
    else
      let r0 : ℚ := dividend / divisor
      let r1 : ℚ := if r0 < 0 then 0 else r0
      let mr1 : ℕ → WithTop ℚ := Function.update mr j (r1 : ℚ)
      if c.dist j < c.voxel_diagonal then none
      else some ((c.shadow j).foldl (fun m k => processShadowPoint dividend nrm c m k) mr1)

/-- Lines 658-670: `std::stable_sort` of the point indices by ascending
precomputed distance. -/
def sortedIndices (n : ℕ) (dist : ℕ → ℚ) : List ℕ :=
  (List.range n).mergeSort (fun a b => decide (dist a ≤ dist b))

/-- The whole per-scan `normals` max-range computation; `maxranges` starts
at `+∞` everywhere (lines 626-630). -/
def computeMaxranges (n : ℕ) (c : NormalsCtx) : Option (ℕ → WithTop ℚ) :=
  (sortedIndices n c.dist).foldl
    (fun acc j => acc.bind (fun mr => processSeed c mr j))
    (some (fun _ => (⊤ : WithTop ℚ)))

/-- The stop condition of the visitor, as the spec words it: for
`diff = 0` the current slice itself is in the voxel's slice set, for
`diff > 0` some slice in the inclusive window
`[max 0 (i - diff), i + diff]` is (over `ℕ`, `i - diff` *is*
`max 0 (i - diff)`). -/
def windowHit (S : Finset ℕ) (current_slice diff : ℕ) : Prop :=
  if diff = 0 then current_slice ∈ S
  else ∃ m ∈ S, current_slice - diff ≤ m ∧ m ≤ current_slice + diff

instance (S : Finset ℕ) (i diff : ℕ) : Decidable (windowHit S i diff) := by
  unfold windowHit; infer_instance

/-- A concrete one-point context exercising the `normals` phase: a point at
distance 2 straight ahead, unit voxel diagonal, no fuzz, empty shadow. -/
def ctxOnePoint : NormalsCtx where
  dist := fun _ => 2
  origPt := fun _ => ![2, 0, 0]
  pnorm := fun _ => ![1, 0, 0]
  rawNormal := fun _ => ![1, 0, 0]
  shadow := fun _ => []
  voxel_diagonal := 1
  fuzz := 0

/-- The standing invariant of the walker loop: some axis is active, active
axes have positive `tDelta`, and each `tMax` is the base value plus
`mult * tDelta` (the drift-free reconstruction the source insists on). -/
def WalkInv (axes : Fin 3 → AxisState) : Prop :=
  (∃ i, (axes i).step ≠ 0) ∧
  (∀ i, (axes i).step ≠ 0 → 0 < (axes i).tDelta) ∧
  (∀ i, (axes i).tMax = (axes i).tMaxStart + (axes i).mult * (axes i).tDelta)

/-! ### Concrete data for the walker counterexample and witnesses -/

def cexStart : Pt3 := fun _ => 1/2

def cexEnd : Pt3 := ![5/2, 1/2, 1/2]

def cexVisitor : Voxel → Unit → Unit × Bool := fun _ _ => ((), false)

def axA : AxisState :=
  { step := 1, tDelta := 1/2, tMax := 1/4, tMaxStart := 1/4, maxMult := 2,
    sc := 0, mult := 0 }

def axI : AxisState :=
  { step := 0, tDelta := 0, tMax := 0, tMaxStart := 0, maxMult := 0,
    sc := 0, mult := 0 }

def axA1 : AxisState :=
  { step := 1, tDelta := 1/2, tMax := 3/4, tMaxStart := 1/4, maxMult := 2,
    sc := 0, mult := 1 }

/-! ### Static and dynamic loop invariants for the end-reaching proof -/

/-- The static geometric facts about one initialised axis, relative to the
end cell `ec` of that axis: the step direction, the positive step size, the
relation of `sc`/`maxMult` to the end cell, and the position of the
boundary-crossing parameters `tMaxStart + (m-1)*tDelta` relative to the
segment parameter `1` (the endpoint): all entering crossings happen at or
before `1` (strictly before for a negative axis), and the first crossing
out of the end cell happens at or after `1` (strictly after for a positive
axis). -/
def AxisStatic (a : AxisState) (ec : ℤ) : Prop :=
  if a.step = 0 then a.sc = ec
  else
    (a.step = 1 ∨ a.step = -1) ∧ 0 < a.tDelta ∧
    a.sc + a.maxMult * a.step = ec ∧ 0 ≤ a.maxMult ∧
    (∀ m : ℤ, 1 ≤ m → m ≤ a.maxMult →
      a.tMaxStart + ((m : ℚ) - 1) * a.tDelta ≤ 1 ∧
      (a.step = -1 → a.tMaxStart + ((m : ℚ) - 1) * a.tDelta < 1)) ∧
    1 ≤ a.tMaxStart + (a.maxMult : ℚ) * a.tDelta ∧
    (a.step = 1 → 1 < a.tMaxStart + (a.maxMult : ℚ) * a.tDelta)

/-- The dynamic per-axis loop invariant: `tMax` is reconstructed from the
counter, and the counter has not passed `maxMult`. -/
def AxisDyn (a : AxisState) : Prop :=
  a.tMax = a.tMaxStart + a.mult * a.tDelta ∧ (a.step ≠ 0 → (a.mult : ℤ) ≤ a.maxMult)

/-- Remaining steps until every axis has entered its end cell. -/
def PhiOf (axes : Fin 3 → AxisState) : ℕ :=
  (if (axes 0).step = 0 then 0 else (axes 0).maxMult.toNat - (axes 0).mult) +
  (if (axes 1).step = 0 then 0 else (axes 1).maxMult.toNat - (axes 1).mult) +
  (if (axes 2).step = 0 then 0 else (axes 2).maxMult.toNat - (axes 2).mult)

/-- Concrete data for the C4 witness: a ray crossing two voxel boundaries
along the x axis. -/
def wStart : Pt3 := fun _ => 1/2

def wEnd : Pt3 := ![5/2, 1/2, 1/2]

def wVisitor : Voxel → Unit → Unit × Bool := fun _ _ => ((), true)

/-! ## Theorems -/

lemma rtrunc_of_nonneg {q : ℚ} (h : 0 ≤ q) : rtrunc q = ⌊q⌋ := by
  simp [rtrunc, h]

lemma rtrunc_of_neg {q : ℚ} (h : q < 0) : rtrunc q = ⌈q⌉ := by
  simp [rtrunc, not_le.mpr h]

lemma fmodQ_eq (a b : ℚ) (hb : b ≠ 0) :
    fmodQ a b = b * (a / b - rtrunc (a / b)) := by
  rw [fmodQ, mul_sub, mul_div_cancel₀ _ hb]

lemma ceil_of_fract_ne {t : ℚ} (h : Int.fract t ≠ 0) : (⌈t⌉ : ℤ) = ⌊t⌋ + 1 := by
  rcases Int.fract_eq_zero_or_add_one_sub_ceil t with hz | hc
  · exact absurd hz h
  · have h1 : Int.fract t = t - ⌊t⌋ := rfl
    have h2 : t - (⌊t⌋ : ℚ) = t + 1 - (⌈t⌉ : ℚ) := by rw [← h1, hc]
    have h3 : ((⌈t⌉ : ℤ) : ℚ) = ((⌊t⌋ + 1 : ℤ) : ℚ) := by push_cast; linarith
    exact_mod_cast h3

lemma mul_fract_sign {b f : ℚ} (hf : 0 < f) :
    (b * f < 0) ↔ (b < 0) := by
  constructor
  · intro hlt
    by_contra hbnn
    push_neg at hbnn
    exact absurd (mul_nonneg hbnn (le_of_lt hf)) (not_le.mpr hlt)
  · intro hbneg
    exact mul_neg_of_neg_of_pos hbneg hf

lemma mul_fract_neg_sign {b f : ℚ} (hb : b ≠ 0) (hf : f < 0) :
    ¬((b * f < 0) ↔ (b < 0)) := by
  rcases lt_or_gt_of_ne hb with hbneg | hbpos
  · intro hiff
    have hpos : 0 < b * f := mul_pos_of_neg_of_neg hbneg hf
    exact absurd (hiff.mpr hbneg) (not_lt.mpr (le_of_lt hpos))
  · intro hiff
    have hneg : b * f < 0 := mul_neg_of_pos_of_neg hbpos hf
    exact absurd (hiff.mp hneg) (not_lt.mpr (le_of_lt hbpos))

/-- The remainder `fmod a b`, expressed through floor/ceil of `a / b`. -/
lemma fmodQ_cases (a b : ℚ) (hb : b ≠ 0) :
    (Int.fract (a / b) = 0 ∧ fmodQ a b = 0 ∧ rtrunc (a / b) = ⌊a / b⌋) ∨
    (0 ≤ a / b ∧ Int.fract (a / b) ≠ 0 ∧ fmodQ a b = b * Int.fract (a / b) ∧
      rtrunc (a / b) = ⌊a / b⌋) ∨
    (a / b < 0 ∧ Int.fract (a / b) ≠ 0 ∧ fmodQ a b = b * (Int.fract (a / b) - 1) ∧
      rtrunc (a / b) = ⌊a / b⌋ + 1) := by
  have hfr : Int.fract (a / b) = a / b - ⌊a / b⌋ := rfl
  rcases le_or_lt 0 (a / b) with h0 | h0
  · have htr : rtrunc (a / b) = ⌊a / b⌋ := rtrunc_of_nonneg h0
    by_cases hz : Int.fract (a / b) = 0
    · left
      refine ⟨hz, ?_, htr⟩
      rw [fmodQ_eq a b hb, htr, ← hfr, hz, mul_zero]
    · right; left
      refine ⟨h0, hz, ?_, htr⟩
      rw [fmodQ_eq a b hb, htr, ← hfr]
  · have htr : rtrunc (a / b) = ⌈a / b⌉ := rtrunc_of_neg h0
    by_cases hz : Int.fract (a / b) = 0
    · left
      have hint : a / b = (⌊a / b⌋ : ℚ) := by
        have := hfr
        rw [hz] at this
        linarith
      refine ⟨hz, ?_, ?_⟩
      · rw [fmodQ_eq a b hb, htr]
        have hcv : (⌈a / b⌉ : ℚ) = a / b := by
          rw [hint, Int.ceil_intCast]
        rw [hcv]
        ring
      · rw [htr]
        rw [hint]
        rw [Int.ceil_intCast, Int.floor_intCast]
    · right; right
      have hceil : (⌈a / b⌉ : ℤ) = ⌊a / b⌋ + 1 := ceil_of_fract_ne hz
      refine ⟨h0, hz, ?_, by rw [htr, hceil]⟩
      rw [fmodQ_eq a b hb, htr]
      have : a / b - ((⌈a / b⌉ : ℤ) : ℚ) = Int.fract (a / b) - 1 := by
        rw [hceil]
        push_cast
        rw [hfr]
        ring
      rw [this]

/-- Core lemma: `py_div` is mathematical floor division (for any nonzero divisor). -/
theorem py_div_eq_floor (a b : ℚ) (hb : b ≠ 0) : py_div a b = ⌊a / b⌋ := by
  have hfpos0 := Int.fract_nonneg (a / b)
  have hflt1 := Int.fract_lt_one (a / b)
  rcases fmodQ_cases a b hb with ⟨hz, hf, htr⟩ | ⟨h0, hz, hf, htr⟩ | ⟨h0, hz, hf, htr⟩
  · simp [py_div, hf, htr]
  · have hfpos : 0 < Int.fract (a / b) := lt_of_le_of_ne hfpos0 (Ne.symm hz)
    have hsign := mul_fract_sign (b := b) hfpos
    simp only [py_div, hf]
    rw [if_neg, htr]
    rintro ⟨-, hns⟩
    exact hns hsign
  · have hfm1 : Int.fract (a / b) - 1 < 0 := by linarith
    have hrne : b * (Int.fract (a / b) - 1) ≠ 0 := mul_ne_zero hb (ne_of_lt hfm1)
    have hsign := mul_fract_neg_sign hb hfm1
    simp only [py_div, hf]
    rw [if_pos ⟨hrne, hsign⟩, htr]
    ring

/-- Core lemma: `py_mod` is the Euclidean modulo `b * fract (a/b)`. -/
theorem py_mod_eq_fract (a b : ℚ) (hb : b ≠ 0) :
    py_mod a b = b * Int.fract (a / b) := by
  have hfpos0 := Int.fract_nonneg (a / b)
  rcases fmodQ_cases a b hb with ⟨hz, hf, htr⟩ | ⟨h0, hz, hf, htr⟩ | ⟨h0, hz, hf, htr⟩
  · simp [py_mod, hf, hz]
  · have hfpos : 0 < Int.fract (a / b) := lt_of_le_of_ne hfpos0 (Ne.symm hz)
    have hsign := mul_fract_sign (b := b) hfpos
    simp only [py_mod, hf]
    rw [if_neg]
    rintro ⟨-, hns⟩
    exact hns hsign
  · have hfm1 : Int.fract (a / b) - 1 < 0 := by
      have := Int.fract_lt_one (a / b)
      linarith
    have hrne : b * (Int.fract (a / b) - 1) ≠ 0 := mul_ne_zero hb (ne_of_lt hfm1)
    have hsign := mul_fract_neg_sign hb hfm1
    simp only [py_mod, hf]
    rw [if_pos ⟨hrne, hsign⟩]
    ring

lemma filter_min_le_iff (S : Finset ℕ) (lo hi : ℕ) :
    (∃ h : (S.filter (fun m => lo ≤ m)).Nonempty,
      (S.filter (fun m => lo ≤ m)).min' h ≤ hi) ↔ ∃ m ∈ S, lo ≤ m ∧ m ≤ hi := by
  constructor
  · rintro ⟨h, hle⟩
    have hmem := (S.filter (fun m => lo ≤ m)).min'_mem h
    rw [Finset.mem_filter] at hmem
    exact ⟨_, hmem.1, hmem.2, hle⟩
  · rintro ⟨m, hmS, hlo, hhi⟩
    have hmem : m ∈ S.filter (fun m => lo ≤ m) := Finset.mem_filter.mpr ⟨hmS, hlo⟩
    refine ⟨⟨m, hmem⟩, le_trans (Finset.min'_le _ _ hmem) hhi⟩

/-- The visitor, characterised: absent voxels are passed over, otherwise
the sliding-window test decides between stopping and freeing. -/
lemma visitor_eq_of_some (occ : Voxel → Option (Finset ℕ)) (i diff : ℕ)
    (V : Voxel) (E : Finset Voxel) (S : Finset ℕ) (hS : occ V = some S) :
    visitor occ i diff V E =
      if windowHit S i diff then (E, false) else (insert V E, true) := by
  unfold visitor windowHit
  rw [hS]
  by_cases h0 : diff = 0
  · simp [h0]
  · simp only [h0, if_neg h0, if_false]
    have hws : (if diff > i then 0 else i - diff) = i - diff := by
      split_ifs with h
      · omega
      · rfl
    simp only [hws]
    by_cases hstop : ∃ m ∈ S, i - diff ≤ m ∧ m ≤ i + diff
    · rcases (filter_min_le_iff S (i - diff) (i + diff)).mpr hstop with ⟨hne, hmin⟩
      rw [dif_pos hne, if_pos hmin, if_pos hstop]
    · rw [if_neg hstop]
      by_cases hne : (S.filter (fun m => i - diff ≤ m)).Nonempty
      · rw [dif_pos hne, if_neg]
        intro hmin
        exact hstop ((filter_min_le_iff S (i - diff) (i + diff)).mp ⟨hne, hmin⟩)
      · rw [dif_neg hne]

lemma visitor_eq_of_none (occ : Voxel → Option (Finset ℕ)) (i diff : ℕ)
    (V : Voxel) (E : Finset Voxel) (hS : occ V = none) :
    visitor occ i diff V E = (E, true) := by
  unfold visitor
  rw [hS]

/-- C1: For every voxel `V` delivered to the carving visitor while walking a
ray of current scan `i` with window half-width `diff`: if `V` is absent from
the occupancy index the visitor continues without marking `V`; if
`diff = 0` the visitor stops the walk iff `i` is a member of the voxel's
slice set `S`, and otherwise inserts `V` into the scan's free set and
continues; if `diff > 0` the visitor stops the walk iff `S` contains some
scan index in the inclusive window `[max 0 (i - diff), i + diff]` (truncated
subtraction over `ℕ`), and otherwise inserts `V` into the free set and
continues. -/
theorem claim_C1 (occ : Voxel → Option (Finset ℕ)) (i diff : ℕ)
    (V : Voxel) (E : Finset Voxel) (S : Finset ℕ) (hS : occ V = some S) :
    (∀ V', occ V' = none → visitor occ i diff V' E = (E, true)) ∧
    (diff = 0 → (((visitor occ i diff V E).2 = false) ↔ i ∈ S)) ∧
    (diff = 0 → i ∈ S → visitor occ i diff V E = (E, false)) ∧
    (diff = 0 → i ∉ S → visitor occ i diff V E = (insert V E, true)) ∧
    (0 < diff → (((visitor occ i diff V E).2 = false) ↔
      ∃ m ∈ S, i - diff ≤ m ∧ m ≤ i + diff)) ∧
    (0 < diff → (∃ m ∈ S, i - diff ≤ m ∧ m ≤ i + diff) →
      visitor occ i diff V E = (E, false)) ∧
    (0 < diff → ¬(∃ m ∈ S, i - diff ≤ m ∧ m ≤ i + diff) →
      visitor occ i diff V E = (insert V E, true)) := by
  have hv := visitor_eq_of_some occ i diff V E S hS
  have hz : ∀ h0 : diff = 0, windowHit S i diff ↔ i ∈ S := by
    intro h0
    subst h0
    unfold windowHit
    simp
  have hp : ∀ _ : 0 < diff, windowHit S i diff ↔
      ∃ m ∈ S, i - diff ≤ m ∧ m ≤ i + diff := by
    intro hpos
    unfold windowHit
    rw [if_neg (Nat.pos_iff_ne_zero.mp hpos)]
  refine ⟨fun V' h => visitor_eq_of_none occ i diff V' E h, ?_, ?_, ?_, ?_, ?_, ?_⟩
  · intro h0
    rw [hv]
    by_cases hw : windowHit S i diff
    · rw [if_pos hw]
      simpa using (hz h0).mp hw
    · rw [if_neg hw]
      simpa using fun hm => hw ((hz h0).mpr hm)
  · intro h0 hm
    rw [hv, if_pos ((hz h0).mpr hm)]
  · intro h0 hm
    rw [hv, if_neg (fun hw => hm ((hz h0).mp hw))]
  · intro hpos
    rw [hv]
    by_cases hw : windowHit S i diff
    · rw [if_pos hw]
      simpa using (hp hpos).mp hw
    · rw [if_neg hw]
      simpa using fun hm => hw ((hp hpos).mpr hm)
  · intro hpos hm
    rw [hv, if_pos ((hp hpos).mpr hm)]
  · intro hpos hm
    rw [hv, if_neg (fun hw => hm ((hp hpos).mp hw))]

/-- Witness for C1 at a concrete occupancy index, voxel and window. -/
theorem claim_C1_witness :
    ((fun _ : Voxel => some ({5} : Finset ℕ)) (fun _ => (0 : ℤ)) = some {5}) ∧
    (0 < 2 → (((visitor (fun _ => some {5}) 8 2 (fun _ => 0) ∅).2 = false) ↔
      ∃ m ∈ ({5} : Finset ℕ), 8 - 2 ≤ m ∧ m ≤ 8 + 2)) :=
  ⟨rfl, (claim_C1 (fun _ => some {5}) 8 2 (fun _ => 0) ∅ {5} rfl).2.2.2.2.1⟩

/-- C7: for a voxel whose occupancy entry is the singleton `{j}`, the
visitor frees the voxel (inserts it and continues) iff `|j - i| > diff`:
the window test is symmetric about the current slice `i`. -/
theorem claim_C7 (occ : Voxel → Option (Finset ℕ)) (i diff : ℕ)
    (V : Voxel) (E : Finset Voxel) (j : ℕ) (hS : occ V = some {j}) :
    visitor occ i diff V E = (insert V E, true) ↔
      diff < ((j : ℤ) - (i : ℤ)).natAbs := by
  rw [visitor_eq_of_some occ i diff V E {j} hS]
  have hwh : windowHit {j} i diff ↔ ¬(diff < ((j : ℤ) - (i : ℤ)).natAbs) := by
    unfold windowHit
    split_ifs with h0
    · subst h0
      rw [Finset.mem_singleton]
      omega
    · simp only [Finset.mem_singleton]
      constructor
      · rintro ⟨m, rfl, h1, h2⟩
        omega
      · intro h
        exact ⟨j, rfl, by omega, by omega⟩
  by_cases hw : windowHit {j} i diff
  · rw [if_pos hw]
    rw [hwh] at hw
    constructor
    · intro heq
      have : false = true := congrArg Prod.snd heq
      exact absurd this (by simp)
    · intro h
      exact absurd h hw
  · rw [if_neg hw]
    rw [hwh, not_not] at hw
    exact ⟨fun _ => hw, fun _ => rfl⟩

/-- Witness for C7: singleton `{5}`, current slice `1`, window `1`. -/
theorem claim_C7_witness :
    visitor (fun _ => some ({5} : Finset ℕ)) 1 1 (fun _ => (0 : ℤ)) ∅ =
      (insert (fun _ => (0 : ℤ)) ∅, true) ↔
      (1 : ℕ) < ((5 : ℤ) - (1 : ℤ)).natAbs :=
  claim_C7 (fun _ => some {5}) 1 1 (fun _ => 0) ∅ 5 rfl

/-- C2: for every coordinate `x` and positive voxel size `v` the voxelizer
computes `⌊x / v⌋` with mathematical floor (so `x / v` minus the cell index
lies in `[0, 1)` and the cell of `-0.5 * v` is `-1`), and the Euclidean
remainder `py_mod` has the sign of its divisor whenever it is nonzero. -/
theorem claim_C2 (x v a b : ℚ) (hv : 0 < v) (hb : b ≠ 0)
    (hm : py_mod a b ≠ 0) :
    (∀ (p : Pt3) (i : Fin 3), voxel_of_point p v i = ⌊p i / v⌋) ∧
    py_div x v = ⌊x / v⌋ ∧
    (0 ≤ x / v - (py_div x v : ℚ) ∧ x / v - (py_div x v : ℚ) < 1) ∧
    py_div (-(v / 2)) v = -1 ∧
    (0 < py_mod a b ↔ 0 < b) := by
  have hvne : v ≠ 0 := ne_of_gt hv
  refine ⟨fun p i => py_div_eq_floor (p i) v hvne, py_div_eq_floor x v hvne, ?_, ?_, ?_⟩
  · rw [py_div_eq_floor x v hvne]
    have hfr : Int.fract (x / v) = x / v - (⌊x / v⌋ : ℚ) := rfl
    exact ⟨by rw [← hfr]; exact Int.fract_nonneg (x / v),
      by rw [← hfr]; exact Int.fract_lt_one (x / v)⟩
  · rw [py_div_eq_floor _ v hvne]
    have hdiv : -(v / 2) / v = -(1 / 2 : ℚ) := by field_simp; ring
    rw [hdiv]
    rw [Int.floor_eq_iff]
    norm_num
  · rw [py_mod_eq_fract a b hb]
    have hf : Int.fract (a / b) ≠ 0 := by
      intro h
      rw [py_mod_eq_fract a b hb, h, mul_zero] at hm
      exact hm rfl
    have hfpos : 0 < Int.fract (a / b) :=
      lt_of_le_of_ne (Int.fract_nonneg _) (Ne.symm hf)
    constructor
    · intro h
      by_contra hble
      push_neg at hble
      rcases lt_or_eq_of_le hble with hlt | rfl
      · nlinarith
      · exact hb rfl
    · intro h
      exact mul_pos h hfpos

/-- Witness for C2 at `x = 3/2`, `v = 1`, `a = -3/2`, `b = 1`. -/
theorem claim_C2_witness :
    (0 : ℚ) < 1 ∧ (1 : ℚ) ≠ 0 ∧ py_mod (-(3 / 2)) 1 ≠ 0 ∧
    ((∀ (p : Pt3) (i : Fin 3), voxel_of_point p 1 i = ⌊p i / 1⌋) ∧
      py_div (3 / 2) 1 = ⌊(3 / 2 : ℚ) / 1⌋ ∧
      (0 ≤ (3 / 2 : ℚ) / 1 - (py_div (3 / 2) 1 : ℚ) ∧
        (3 / 2 : ℚ) / 1 - (py_div (3 / 2) 1 : ℚ) < 1) ∧
      py_div (-(1 / 2)) 1 = -1 ∧
      (0 < py_mod (-(3 / 2)) 1 ↔ (0 : ℚ) < 1)) :=
  ⟨by norm_num, by norm_num,
    by rw [py_mod_eq_fract _ _ one_ne_zero]; norm_num [Int.fract],
    claim_C2 (3 / 2) 1 (-(3 / 2)) 1 (by norm_num) (by norm_num)
      (by rw [py_mod_eq_fract _ _ one_ne_zero]; norm_num [Int.fract])⟩

/-- C10: the `start`/`end` configuration checks reject exactly the
configurations with `start < 0`, with `end < -1`, or with
`0 < end ∧ end < start`; in particular `end = 0` with `start > 0` passes. -/
theorem claim_C10 (s e s' s2 e2 : ℤ) (h0 : 0 < s') (hbad : s2 < 0 ∨ e2 < -1) :
    (check_start_end s e = .ok () ↔ (0 ≤ s ∧ -1 ≤ e ∧ ¬(0 < e ∧ e < s))) ∧
    check_start_end s' 0 = .ok () ∧
    check_start_end s2 e2 ≠ .ok () := by
  refine ⟨?_, ?_, ?_⟩
  · unfold check_start_end
    split_ifs with h1 h2 h3 <;> simp <;> omega
  · unfold check_start_end
    split_ifs with h1 h2 h3
    · omega
    · omega
    · omega
    · rfl
  · unfold check_start_end
    split_ifs with h1 h2 h3 <;> simp <;> omega

/-- Witness for C10 at `start = 3, end = 0`, `start = 7`, and the rejected
`start = -1, end = 5`. -/
theorem claim_C10_witness :
    (0 : ℤ) < 7 ∧ ((-1 : ℤ) < 0 ∨ (5 : ℤ) < -1) ∧
    ((check_start_end 3 0 = .ok () ↔
      (0 ≤ (3 : ℤ) ∧ -1 ≤ (0 : ℤ) ∧ ¬((0 : ℤ) < 0 ∧ (0 : ℤ) < 3))) ∧
    check_start_end 7 0 = .ok () ∧
    check_start_end (-1) 5 ≠ .ok ()) :=
  ⟨by norm_num, Or.inl (by norm_num),
    claim_C10 3 0 7 (-1) 5 (by norm_num) (Or.inl (by norm_num))⟩

lemma foldl_insert_eq_union (l : List Voxel) (acc : Finset Voxel) :
    l.foldl (fun a v => insert v a) acc = acc ∪ l.toFinset := by
  induction l generalizing acc with
  | nil => simp
  | cons x xs ih =>
    rw [List.foldl_cons, ih]
    ext w
    simp only [Finset.mem_union, Finset.mem_insert, List.toFinset_cons]
    tauto

lemma mergeFree_eq_union (acc s : Finset Voxel) : mergeFree acc s = acc ∪ s := by
  unfold mergeFree
  rw [foldl_insert_eq_union, Finset.sort_toFinset]

lemma foldl_mergeFree_mem (l : List ℕ) (f : ℕ → Finset Voxel)
    (init : Finset Voxel) (V : Voxel) :
    V ∈ l.foldl (fun acc i => mergeFree acc (f i)) init ↔
      V ∈ init ∨ ∃ i ∈ l, V ∈ f i := by
  induction l generalizing init with
  | nil => simp
  | cons x xs ih =>
    rw [List.foldl_cons, ih, mergeFree_eq_union]
    simp only [Finset.mem_union, List.mem_cons]
    constructor
    · rintro (⟨h | h⟩ | ⟨i, hi, hV⟩)
      · exact Or.inl h
      · exact Or.inr ⟨x, Or.inl rfl, h⟩
      · exact Or.inr ⟨i, Or.inr hi, hV⟩
    · rintro (h | ⟨i, rfl | hi, hV⟩)
      · exact Or.inl (Or.inl h)
      · exact Or.inl (Or.inr hV)
      · exact Or.inr ⟨i, hi, hV⟩

lemma writePartitioning_inner (ps : List Pt3) (vs : ℚ) (free : Finset Voxel)
    (acc : List (ℚ × ℚ × ℚ × ℚ) × List (ℚ × ℚ × ℚ × ℚ)) :
    ps.foldl
      (fun acc2 p =>
        if voxel_of_point p vs ∈ free then (acc2.1, acc2.2 ++ [outLine p])
        else (acc2.1 ++ [outLine p], acc2.2)) acc =
    (acc.1 ++ (ps.filter (fun p => !decide (voxel_of_point p vs ∈ free))).map outLine,
     acc.2 ++ (ps.filter (fun p => decide (voxel_of_point p vs ∈ free))).map outLine) := by
  induction ps generalizing acc with
  | nil => simp
  | cons p ps ih =>
    rw [List.foldl_cons, ih]
    by_cases h : voxel_of_point p vs ∈ free
    · simp [h]
    · simp [h]

lemma writePartitioning_eq (points : ℕ → List Pt3) (refl : ℕ → List ℚ)
    (vs : ℚ) (free : Finset Voxel) (so : List ℕ) :
    writePartitioning points refl vs free so =
    (((so.flatMap points).filter (fun p => !decide (voxel_of_point p vs ∈ free))).map outLine,
     ((so.flatMap points).filter (fun p => decide (voxel_of_point p vs ∈ free))).map outLine) := by
  unfold writePartitioning
  suffices h : ∀ acc : List (ℚ × ℚ × ℚ × ℚ) × List (ℚ × ℚ × ℚ × ℚ),
      so.foldl
        (fun acc i =>
          (points i).foldl
            (fun acc2 p =>
              if voxel_of_point p vs ∈ free then (acc2.1, acc2.2 ++ [outLine p])
              else (acc2.1 ++ [outLine p], acc2.2)) acc) acc =
      (acc.1 ++ ((so.flatMap points).filter
          (fun p => !decide (voxel_of_point p vs ∈ free))).map outLine,
       acc.2 ++ ((so.flatMap points).filter
          (fun p => decide (voxel_of_point p vs ∈ free))).map outLine) by
    rw [h ([], [])]
    simp
  induction so with
  | nil => intro acc; simp
  | cons i so ih =>
    intro acc
    rw [List.foldl_cons, writePartitioning_inner, ih]
    simp [List.filter_append, List.map_append, List.append_assoc]

/-- C8: after walking all rays of all scans, the global `free_voxels` set is
exactly the union of the per-scan free sets; the partition writer sends a
point to the dynamic file iff its voxel is in `free_voxels` (and to the
static file otherwise); and the mask of scan `i` has one line per input
point, in input order, `1` for dynamic and `0` for static. -/
theorem claim_C8 (occ : Voxel → Option (Finset ℕ)) (vs : ℚ) (diff : ℕ)
    (pos : ℕ → Pt3) (ray_ends : ℕ → List Pt3) (so : List ℕ)
    (points : ℕ → List Pt3) (refl : ℕ → List ℚ) :
    (∀ V : Voxel, V ∈ carve occ vs diff pos ray_ends so ↔
      ∃ i ∈ so, V ∈ scanFree occ vs diff (pos i) (ray_ends i) i) ∧
    (writePartitioning points refl vs (carve occ vs diff pos ray_ends so) so =
      (((so.flatMap points).filter
          (fun p => !decide (voxel_of_point p vs ∈ carve occ vs diff pos ray_ends so))).map
          outLine,
       ((so.flatMap points).filter
          (fun p => decide (voxel_of_point p vs ∈ carve occ vs diff pos ray_ends so))).map
          outLine)) ∧
    (∀ i : ℕ,
      (maskLines points vs (carve occ vs diff pos ray_ends so) i).length =
        (points i).length ∧
      ∀ j : ℕ,
        (maskLines points vs (carve occ vs diff pos ray_ends so) i)[j]? =
          ((points i)[j]?).map
            (fun p => if voxel_of_point p vs ∈ carve occ vs diff pos ray_ends so
              then 1 else 0)) := by
  refine ⟨?_, writePartitioning_eq _ _ _ _ _, ?_⟩
  · intro V
    unfold carve
    rw [foldl_mergeFree_mem]
    simp
  · intro i
    refine ⟨by simp [maskLines], ?_⟩
    intro j
    unfold maskLines
    rw [List.getElem?_map]

/-- C9: in the two output point clouds, the fourth field of every line is
the constant `0`, for every input — in particular never the ingested
reflectance. -/
theorem claim_C9 (points : ℕ → List Pt3) (refl : ℕ → List ℚ) (vs : ℚ)
    (free : Finset Voxel) (so : List ℕ) :
    (((writePartitioning points refl vs free so).1 ++
      (writePartitioning points refl vs free so).2).all
        (fun l => decide (l.2.2.2 = (0 : ℚ)))) = true := by
  rw [writePartitioning_eq]
  simp only [List.all_eq_true, List.all_append, Bool.and_eq_true, List.mem_map]
  exact ⟨fun l ⟨p, _, hpl⟩ => by rw [← hpl]; simp [outLine],
    fun l ⟨p, _, hpl⟩ => by rw [← hpl]; simp [outLine]⟩

/-! ### Max-range phase: invariants -/

/-- The C5 invariant: every finite `maxranges` entry lies in `[0, dist j]`. -/
def MrInv (dist : ℕ → ℚ) (mr : ℕ → WithTop ℚ) : Prop :=
  ∀ (j : ℕ) (q : ℚ), mr j = (q : WithTop ℚ) → 0 ≤ q ∧ q ≤ dist j

lemma mrInv_update (dist : ℕ → ℚ) (mr : ℕ → WithTop ℚ) (k : ℕ) (q : ℚ)
    (hmr : MrInv dist mr) (h0 : 0 ≤ q) (h1 : q ≤ dist k) :
    MrInv dist (Function.update mr k (q : WithTop ℚ)) := by
  intro j r hj
  by_cases hjk : j = k
  · subst hjk
    rw [Function.update_same] at hj
    have : q = r := by exact_mod_cast hj
    exact this ▸ ⟨h0, h1⟩
  · rw [Function.update_noteq hjk] at hj
    exact hmr j r hj

lemma processShadowPoint_inv (c : NormalsCtx) (dividend : ℚ) (nrm : Pt3)
    (mr : ℕ → WithTop ℚ) (k : ℕ) (hd : ∀ j, 0 ≤ c.dist j)
    (hmr : MrInv c.dist mr) :
    MrInv c.dist (processShadowPoint dividend nrm c mr k) := by
  unfold processShadowPoint
  by_cases hdiv : dot3 (c.pnorm k) nrm = 0
  · rw [if_pos hdiv]
    exact hmr
  · rw [if_neg hdiv]
    by_cases hfar : dividend / dot3 (c.pnorm k) nrm > c.dist k
    · rw [if_pos hfar]
      exact hmr
    · rw [if_neg hfar]
      push_neg at hfar
      by_cases hlt : mr k < (((if dividend / dot3 (c.pnorm k) nrm < 0 then 0
          else dividend / dot3 (c.pnorm k) nrm) : ℚ) : WithTop ℚ)
      · rw [if_pos hlt]
        exact hmr
      · rw [if_neg hlt]
        apply mrInv_update c.dist mr k _ hmr
        · split_ifs with hneg
          · exact le_refl 0
          · push_neg at hneg
            exact hneg
        · split_ifs with hneg
          · exact hd k
          · exact hfar

lemma shadow_fold_inv (c : NormalsCtx) (dividend : ℚ) (nrm : Pt3)
    (l : List ℕ) (mr : ℕ → WithTop ℚ) (hd : ∀ j, 0 ≤ c.dist j)
    (hmr : MrInv c.dist mr) :
    MrInv c.dist (l.foldl (fun m k => processShadowPoint dividend nrm c m k) mr) := by
  induction l generalizing mr with
  | nil => exact hmr
  | cons k l ih =>
    rw [List.foldl_cons]
    exact ih _ (processShadowPoint_inv c dividend nrm mr k hd hmr)

lemma processSeed_inv (c : NormalsCtx) (mr mr' : ℕ → WithTop ℚ) (j : ℕ)
    (hd : ∀ j, 0 ≤ c.dist j) (hmr : MrInv c.dist mr)
    (h : processSeed c mr j = some mr') : MrInv c.dist mr' := by
  unfold processSeed at h
  by_cases hfin : mr j ≠ ⊤
  · rw [if_pos hfin] at h
    exact (Option.some_inj.mp h) ▸ hmr
  · rw [if_neg hfin] at h
    by_cases hdiv : dot3 (c.pnorm j) (orientNormal (c.rawNormal j) (c.pnorm j)) = 0
    · rw [if_pos hdiv] at h
      refine (Option.some_inj.mp h) ▸ mrInv_update c.dist mr j 0 hmr (le_refl 0) (hd j)
    · rw [if_neg hdiv] at h
      by_cases habort : dot3 (fun k => c.origPt j k +
            orientNormal (c.rawNormal j) (c.pnorm j) k * (c.voxel_diagonal + c.fuzz))
            (orientNormal (c.rawNormal j) (c.pnorm j)) /
          dot3 (c.pnorm j) (orientNormal (c.rawNormal j) (c.pnorm j)) > c.dist j
      · rw [if_pos habort] at h
        exact absurd h (by simp)
      · rw [if_neg habort] at h
        push_neg at habort
        by_cases hclose : c.dist j < c.voxel_diagonal
        · rw [if_pos hclose] at h
          exact absurd h (by simp)
        · rw [if_neg hclose] at h
          refine (Option.some_inj.mp h) ▸ shadow_fold_inv c _ _ _ _ hd ?_
          apply mrInv_update c.dist mr j _ hmr
          · split_ifs with hneg
            · exact le_refl 0
            · push_neg at hneg
              exact hneg
          · split_ifs with hneg
            · exact hd j
            · exact habort

lemma seeds_fold_inv (c : NormalsCtx) (l : List ℕ)
    (acc : Option (ℕ → WithTop ℚ)) (mr' : ℕ → WithTop ℚ)
    (hd : ∀ j, 0 ≤ c.dist j)
    (hacc : ∀ mr, acc = some mr → MrInv c.dist mr)
    (h : l.foldl (fun acc j => acc.bind (fun mr => processSeed c mr j)) acc =
      some mr') : MrInv c.dist mr' := by
  induction l generalizing acc with
  | nil => exact hacc mr' h
  | cons j l ih =>
    rw [List.foldl_cons] at h
    refine ih _ ?_ h
    intro mr hmr
    rcases Option.bind_eq_some.mp hmr with ⟨mr0, hmr0, hps⟩
    exact processSeed_inv c mr0 mr j hd (hacc mr0 hmr0) hps

/-- C5: whenever the `normals` max-range phase terminates without aborting
and leaves `maxranges[j]` finite, then `0 ≤ maxranges[j] ≤ dist j` (the
point's scanner-local distance, which is nonnegative as a norm). -/
theorem claim_C5 (c : NormalsCtx) (n : ℕ) (hd : ∀ j, 0 ≤ c.dist j)
    (R : ℕ → WithTop ℚ) (hrun : computeMaxranges n c = some R) :
    ∀ (j : ℕ) (q : ℚ), R j = (q : WithTop ℚ) → 0 ≤ q ∧ q ≤ c.dist j := by
  refine seeds_fold_inv c (sortedIndices n c.dist) (some (fun _ => ⊤)) R hd ?_ hrun
  intro mr hmr j q hj
  rw [← Option.some_inj.mp hmr] at hj
  exact absurd hj (by simp)

/-- Witness for C5: the one-point context runs to completion and yields
`maxranges[0] = 1`, which indeed lies in `[0, dist 0] = [0, 2]`. -/
theorem claim_C5_witness :
    (∀ j, 0 ≤ ctxOnePoint.dist j) ∧
    computeMaxranges 1 ctxOnePoint =
      some (Function.update (fun _ => (⊤ : WithTop ℚ)) 0 ((1 : ℚ) : WithTop ℚ)) ∧
    (∀ (j : ℕ) (q : ℚ),
      Function.update (fun _ => (⊤ : WithTop ℚ)) 0 ((1 : ℚ) : WithTop ℚ) j =
        (q : WithTop ℚ) → 0 ≤ q ∧ q ≤ ctxOnePoint.dist j) := by
  have hrun : computeMaxranges 1 ctxOnePoint =
      some (Function.update (fun _ => (⊤ : WithTop ℚ)) 0 ((1 : ℚ) : WithTop ℚ)) := by
    unfold computeMaxranges sortedIndices processSeed orientNormal dot3 ctxOnePoint
    norm_num
    rw [show List.range 1 = [0] from rfl, List.mergeSort_singleton]
    simp
  exact ⟨fun j => by norm_num [ctxOnePoint], hrun,
    claim_C5 ctxOnePoint 1 (fun j => by norm_num [ctxOnePoint]) _ hrun⟩

lemma clamp_eq_max (d : ℚ) : (if d < 0 then 0 else d) = max 0 d := by
  rcases lt_or_le d 0 with h | h
  · rw [if_pos h, max_eq_left (le_of_lt h)]
  · rw [if_neg (not_lt.mpr h), max_eq_right h]

lemma min_update_eq (mr : ℕ → WithTop ℚ) (k : ℕ) (d : ℚ) :
    (if mr k < (d : WithTop ℚ) then mr else Function.update mr k (d : WithTop ℚ)) =
      Function.update mr k (min (mr k) (d : WithTop ℚ)) := by
  rcases lt_or_le (mr k) ((d : WithTop ℚ)) with h | h
  · rw [if_pos h, min_eq_left (le_of_lt h), Function.update_eq_self]
  · rw [if_neg (not_lt.mpr h), min_eq_right h]

/-- C6: in the `normals` method (a) the seed iteration order is ascending in
scanner-local distance, (b) a seed whose `maxranges` entry is already finite
is skipped (the state is returned unchanged, with no abort), and (c) each
shadow neighbour `k` is skipped when `q̂·n = 0` or when the candidate
`D/(q̂·n)` exceeds `dist k`, and otherwise `maxranges[k]` becomes
`min (maxranges[k]) (max 0 (D/(q̂·n)))` — the candidate clamped at `0` —
leaving every other entry unchanged. -/
theorem claim_C6 (c : NormalsCtx) (n : ℕ) (mr : ℕ → WithTop ℚ) (j : ℕ)
    (hfin : mr j ≠ ⊤) (dividend : ℚ) (nrm : Pt3) (k : ℕ) :
    List.Pairwise (fun a b => c.dist a ≤ c.dist b) (sortedIndices n c.dist) ∧
    processSeed c mr j = some mr ∧
    (dot3 (c.pnorm k) nrm = 0 → processShadowPoint dividend nrm c mr k = mr) ∧
    (dot3 (c.pnorm k) nrm ≠ 0 →
      dividend / dot3 (c.pnorm k) nrm > c.dist k →
      processShadowPoint dividend nrm c mr k = mr) ∧
    (dot3 (c.pnorm k) nrm ≠ 0 →
      ¬(dividend / dot3 (c.pnorm k) nrm > c.dist k) →
      processShadowPoint dividend nrm c mr k =
        Function.update mr k
          (min (mr k) ((max 0 (dividend / dot3 (c.pnorm k) nrm) : ℚ) : WithTop ℚ))) := by
  refine ⟨?_, ?_, ?_, ?_, ?_⟩
  · have h := @List.sorted_mergeSort ℕ
      (fun a b => decide (c.dist a ≤ c.dist b))
      (fun a b d hab hbd => by
        simp only [decide_eq_true_eq] at hab hbd ⊢
        exact le_trans hab hbd)
      (fun a b => by
        simp only [Bool.or_eq_true, decide_eq_true_eq]
        exact le_total (c.dist a) (c.dist b))
      (List.range n)
    exact h.imp (fun hab => by simpa using hab)
  · unfold processSeed
    rw [if_pos hfin]
  · intro h
    unfold processShadowPoint
    rw [if_pos h]
  · intro h hfar
    unfold processShadowPoint
    rw [if_neg h, if_pos hfar]
  · intro h hfar
    unfold processShadowPoint
    rw [if_neg h, if_neg hfar, clamp_eq_max, min_update_eq]

/-- Witness for C6: a finite entry (`0`) at the seed, and a concrete
neighbour with perpendicular sight line in the one-point context. -/
theorem claim_C6_witness :
    ((fun _ : ℕ => ((0 : ℚ) : WithTop ℚ)) 0 ≠ ⊤) ∧
    List.Pairwise (fun a b => ctxOnePoint.dist a ≤ ctxOnePoint.dist b)
      (sortedIndices 1 ctxOnePoint.dist) ∧
    processSeed ctxOnePoint (fun _ => ((0 : ℚ) : WithTop ℚ)) 0 =
      some (fun _ => ((0 : ℚ) : WithTop ℚ)) := by
  have h := claim_C6 ctxOnePoint 1 (fun _ => ((0 : ℚ) : WithTop ℚ)) 0
    (by simp) 0 ![0, 1, 0] 0
  exact ⟨by simp, h.1, h.2.1⟩

/-! ### Walker structure lemmas -/

lemma stopLast_nil : StopLast [] := by
  intro pre mid post h
  exact absurd h (by simp)

lemma stopLast_single (e : Visit) : StopLast [e] := by
  intro pre mid post h _
  cases pre with
  | nil => simpa using (List.cons.inj h).2.symm
  | cons p pre' =>
    rcases List.cons.inj h with ⟨-, h2⟩
    exact absurd h2.symm (by simp)

lemma stopLast_cons (e : Visit) (l : List Visit) (he : e.resp = true)
    (hl : StopLast l) : StopLast (e :: l) := by
  intro pre mid post h hf
  cases pre with
  | nil =>
    rcases List.cons.inj h with ⟨rfl, -⟩
    rw [he] at hf
    exact absurd hf (by simp)
  | cons p pre' =>
    rcases List.cons.inj h with ⟨-, h2⟩
    exact hl pre' mid post h2 hf

lemma stopLast_append (l1 l2 : List Visit) (h1 : ∀ e ∈ l1, e.resp = true)
    (h2 : StopLast l2) : StopLast (l1 ++ l2) := by
  induction l1 with
  | nil => exact h2
  | cons e l ih =>
    rw [List.cons_append]
    exact stopLast_cons e _ (h1 e (by simp))
      (ih (fun e he => h1 e (by simp [he])))

lemma stopLast_pair_false (a b : Visit) (ha : a.resp = true) : StopLast [a, b] :=
  stopLast_cons a [b] ha (stopLast_single b)

/-- The facts about one loop iteration needed for the temporal claims:
every delivery of the iteration is stamped with the iteration's `minVal`
and is a grace (`1`) or regular (`2`) delivery; at most one delivery is
regular; a *stop* answer ends the iteration's delivery list; and the loop
only continues (with the stepped axes) when every answer was *continue*. -/
lemma loopBody_facts {σ : Type} (visit : Voxel → σ → σ × Bool)
    (axes : Fin 3 → AxisState) (st : σ) :
    (∀ e ∈ (loopBody visit axes st).2.1,
      e.t = minValOf axes ∧ (e.kind = 1 ∨ e.kind = 2)) ∧
    ((loopBody visit axes st).2.1.filter (fun e => e.kind == 2)).length ≤ 1 ∧
    StopLast (loopBody visit axes st).2.1 ∧
    (∀ a', (loopBody visit axes st).2.2 = some a' →
      a' = stepUpdate axes ∧ ∀ e ∈ (loopBody visit axes st).2.1, e.resp = true) := by
  simp only [loopBody]
  split
  · split
    · rename_i d0 d1 d2 heq
      split
      · split
        · refine ⟨?_, ?_, ?_, ?_⟩
          · intro e he
            simp only [List.mem_singleton] at he
            subst he
            exact ⟨rfl, Or.inl rfl⟩
          · simp
          · exact stopLast_single _
          · intro a' h
            exact absurd h (by simp)
        · split
          · refine ⟨?_, ?_, ?_, ?_⟩
            · intro e he
              simp only [List.mem_cons, List.mem_singleton] at he
              rcases he with rfl | rfl | h
              · exact ⟨rfl, Or.inl rfl⟩
              · exact ⟨rfl, Or.inr rfl⟩
              · exact absurd h (by simp)
            · simp
            · exact stopLast_pair_false _ _ rfl
            · intro a' h
              refine ⟨(Option.some_inj.mp h).symm, ?_⟩
              intro e he
              simp only [List.mem_cons, List.mem_singleton] at he
              rcases he with rfl | rfl | h'
              · rfl
              · rfl
              · exact absurd h' (by simp)
          · refine ⟨?_, ?_, ?_, ?_⟩
            · intro e he
              simp only [List.mem_cons, List.mem_singleton] at he
              rcases he with rfl | rfl | h
              · exact ⟨rfl, Or.inl rfl⟩
              · exact ⟨rfl, Or.inr rfl⟩
              · exact absurd h (by simp)
            · simp
            · exact stopLast_pair_false _ _ rfl
            · intro a' h
              exact absurd h (by simp)
      · refine ⟨?_, ?_, ?_, ?_⟩
        · intro e he
          simp only [List.mem_singleton] at he
          subst he
          exact ⟨rfl, Or.inl rfl⟩
        · simp
        · exact stopLast_single _
        · intro a' h
          exact absurd h (by simp)
    · exact ⟨by simp, by simp, stopLast_nil, by simp⟩
  · split
    · exact ⟨by simp, by simp, stopLast_nil, by simp⟩
    · split
      · refine ⟨?_, ?_, ?_, ?_⟩
        · intro e he
          simp only [List.mem_singleton] at he
          subst he
          exact ⟨rfl, Or.inr rfl⟩
        · simp
        · exact stopLast_single _
        · intro a' h
          refine ⟨(Option.some_inj.mp h).symm, ?_⟩
          intro e he
          simp only [List.mem_singleton] at he
          subst he
          rfl
      · refine ⟨?_, ?_, ?_, ?_⟩
        · intro e he
          simp only [List.mem_singleton] at he
          subst he
          exact ⟨rfl, Or.inr rfl⟩
        · simp
        · exact stopLast_single _
        · intro a' h
          exact absurd h (by simp)

lemma mem_of_getLastQ {l : List Visit} {x : Visit} (h : x ∈ l.getLast?) :
    x ∈ l := by
  rcases List.mem_getLast?_eq_getLast h with ⟨hne, rfl⟩
  exact List.getLast_mem hne

lemma minValOf_le_tMaxW (axes : Fin 3 → AxisState) (i : Fin 3) :
    minValOf axes ≤ tMaxW (axes i) := by
  unfold minValOf
  fin_cases i
  · exact le_trans (min_le_left _ _) (min_le_left _ _)
  · exact le_trans (min_le_left _ _) (min_le_right _ _)
  · exact min_le_right _ _

lemma minValOf_lt_top (axes : Fin 3 → AxisState)
    (h : ∃ i, (axes i).step ≠ 0) : minValOf axes < ⊤ := by
  rcases h with ⟨i, hi⟩
  have hle := minValOf_le_tMaxW axes i
  rw [tMaxW, if_neg hi] at hle
  exact lt_of_le_of_lt hle (WithTop.coe_lt_top _)

lemma stepAxis_step (a : AxisState) : (stepAxis a).step = a.step := rfl

lemma stepUpdate_step (axes : Fin 3 → AxisState) (i : Fin 3) :
    (stepUpdate axes i).step = (axes i).step := by
  unfold stepUpdate
  split
  · rfl
  · rfl

lemma tMaxW_stepUpdate_gt (axes : Fin 3 → AxisState) (hinv : WalkInv axes)
    (i : Fin 3) : minValOf axes < tMaxW (stepUpdate axes i) := by
  unfold stepUpdate
  by_cases hs : steppedOf axes i
  · rw [if_pos hs]
    by_cases h0 : (axes i).step = 0
    · rw [tMaxW, stepAxis_step, if_pos h0]
      exact minValOf_lt_top axes hinv.1
    · have hmin : (tMaxW (axes i)) = minValOf axes := of_decide_eq_true hs
      rw [tMaxW, if_neg h0] at hmin
      rw [tMaxW, stepAxis_step, if_neg h0]
      rw [← hmin]
      rw [WithTop.coe_lt_coe]
      show (axes i).tMax < (stepAxis (axes i)).tMax
      rw [hinv.2.2 i]
      show _ < (axes i).tMaxStart + ((((axes i).mult + 1 : ℕ) : ℚ)) * (axes i).tDelta
      push_cast
      have hd := hinv.2.1 i h0
      nlinarith
  · rw [if_neg hs]
    have hne : tMaxW (axes i) ≠ minValOf axes := by
      intro h
      exact hs (decide_eq_true h)
    exact lt_of_le_of_ne (minValOf_le_tMaxW axes i) (Ne.symm hne)

lemma minValOf_lt_stepUpdate (axes : Fin 3 → AxisState) (hinv : WalkInv axes) :
    minValOf axes < minValOf (stepUpdate axes) := by
  have h0 := tMaxW_stepUpdate_gt axes hinv 0
  have h1 := tMaxW_stepUpdate_gt axes hinv 1
  have h2 := tMaxW_stepUpdate_gt axes hinv 2
  unfold minValOf
  exact lt_min (lt_min h0 h1) h2

lemma walkInv_stepUpdate (axes : Fin 3 → AxisState) (hinv : WalkInv axes) :
    WalkInv (stepUpdate axes) := by
  refine ⟨?_, ?_, ?_⟩
  · rcases hinv.1 with ⟨i, hi⟩
    exact ⟨i, by rw [stepUpdate_step]; exact hi⟩
  · intro i hi
    rw [stepUpdate_step] at hi
    have := hinv.2.1 i hi
    unfold stepUpdate
    split
    · exact this
    · exact this
  · intro i
    unfold stepUpdate
    split
    · show (stepAxis (axes i)).tMax = _
      unfold stepAxis
      push_cast
      ring
    · exact hinv.2.2 i

lemma chain'_le_of_const (l : List Visit) (c : WithTop ℚ)
    (h : ∀ e ∈ l, e.t = c) : List.Chain' (fun a b => a.t ≤ b.t) l := by
  induction l with
  | nil => exact List.chain'_nil
  | cons e l ih =>
    rw [List.chain'_cons']
    refine ⟨?_, ih (fun x hx => h x (by simp [hx]))⟩
    intro y hy
    rw [h e (by simp), h y (List.mem_cons_of_mem e (List.mem_of_mem_head? hy))]

lemma chain'_of_short {α : Type} (R : α → α → Prop) (l : List α)
    (h : l.length ≤ 1) : List.Chain' R l := by
  match l with
  | [] => exact List.chain'_nil
  | [e] => exact List.chain'_singleton e
  | a :: b :: l => simp at h

lemma length_le_one_cases {α : Type} (l : List α) (h : l.length ≤ 1) :
    l = [] ∨ ∃ e, l = [e] := by
  match l with
  | [] => exact Or.inl rfl
  | [e] => exact Or.inr ⟨e, rfl⟩
  | a :: b :: l => simp at h

/-- Monotonicity of the loop trace: every delivery is stamped at or above
the entry `minVal`, stamps are nondecreasing along the trace, and the
regular (kind 2) deliveries have strictly increasing stamps. -/
lemma walkLoop_mono {σ : Type} (visit : Voxel → σ → σ × Bool) (fuel : ℕ)
    (axes : Fin 3 → AxisState) (st : σ) (hinv : WalkInv axes) :
    (∀ e ∈ (walkLoop visit fuel axes st).2, minValOf axes ≤ e.t) ∧
    List.Chain' (fun a b => a.t ≤ b.t) (walkLoop visit fuel axes st).2 ∧
    List.Chain' (fun a b => a.t < b.t)
      ((walkLoop visit fuel axes st).2.filter (fun e => e.kind == 2)) := by
  induction fuel generalizing axes st with
  | zero => simp [walkLoop]
  | succ fuel ih =>
    have hfacts := loopBody_facts visit axes st
    rcases hb : loopBody visit axes st with ⟨st', es, cont⟩
    rw [hb] at hfacts
    simp only at hfacts
    have hes_t : ∀ e ∈ es, e.t = minValOf axes := fun e he => (hfacts.1 e he).1
    cases cont with
    | none =>
      have hres : walkLoop visit (fuel + 1) axes st = (st', es) := by
        rw [walkLoop, hb]
      rw [hres]
      refine ⟨fun e he => le_of_eq (hes_t e he).symm, chain'_le_of_const es _ hes_t, ?_⟩
      exact chain'_of_short _ _ hfacts.2.1
    | some a' =>
      rcases hfacts.2.2.2 a' rfl with ⟨rfl, -⟩
      have hres : walkLoop visit (fuel + 1) axes st =
          ((walkLoop visit fuel (stepUpdate axes) st').1,
            es ++ (walkLoop visit fuel (stepUpdate axes) st').2) := by
        rw [walkLoop, hb]
      rw [hres]
      have hinv' := walkInv_stepUpdate axes hinv
      have hlt := minValOf_lt_stepUpdate axes hinv
      rcases ih (stepUpdate axes) st' hinv' with ⟨ihb, ihc, ihf⟩
      have hrest_gt : ∀ e ∈ (walkLoop visit fuel (stepUpdate axes) st').2,
          minValOf axes < e.t := fun e he => lt_of_lt_of_le hlt (ihb e he)
      refine ⟨?_, ?_, ?_⟩
      · intro e he
        rcases List.mem_append.mp he with h | h
        · exact le_of_eq (hes_t e h).symm
        · exact le_of_lt (hrest_gt e h)
      · rw [List.chain'_append]
        refine ⟨chain'_le_of_const es _ hes_t, ihc, ?_⟩
        intro x hx y hy
        rw [hes_t x (mem_of_getLastQ hx)]
        exact le_of_lt (hrest_gt y (List.mem_of_mem_head? hy))
      · rw [List.filter_append]
        rcases length_le_one_cases _ hfacts.2.1 with hnil | ⟨e, he⟩
        · rw [hnil, List.nil_append]
          exact ihf
        · rw [he, List.singleton_append, List.chain'_cons']
          refine ⟨?_, ihf⟩
          intro y hy
          have hye : e ∈ es := List.mem_of_mem_filter (by rw [he]; simp)
          rw [hes_t e hye]
          have hymem : y ∈ (walkLoop visit fuel (stepUpdate axes) st').2 :=
            List.mem_of_mem_filter (List.mem_of_mem_head? hy)
          exact hrest_gt y hymem

/-- The loop honours *stop*: any delivery answered `false` is the final
delivery of the loop trace. -/
lemma walkLoop_stopLast {σ : Type} (visit : Voxel → σ → σ × Bool) (fuel : ℕ)
    (axes : Fin 3 → AxisState) (st : σ) :
    StopLast (walkLoop visit fuel axes st).2 := by
  induction fuel generalizing axes st with
  | zero =>
    simp only [walkLoop]
    exact stopLast_nil
  | succ fuel ih =>
    have hfacts := loopBody_facts visit axes st
    rcases hb : loopBody visit axes st with ⟨st', es, cont⟩
    rw [hb] at hfacts
    simp only at hfacts
    cases cont with
    | none =>
      rw [walkLoop, hb]
      exact hfacts.2.2.1
    | some a' =>
      rcases hfacts.2.2.2 a' rfl with ⟨rfl, hall⟩
      have hres : walkLoop visit (fuel + 1) axes st =
          ((walkLoop visit fuel (stepUpdate axes) st').1,
            es ++ (walkLoop visit fuel (stepUpdate axes) st').2) := by
        rw [walkLoop, hb]
      rw [hres]
      exact stopLast_append _ _ hall (ih _ st')

lemma setupAxis_inactive (sa ea v : ℚ) (h : ea - sa = 0) :
    setupAxis sa ea v =
      { step := 0, tDelta := 0, tMax := 0, tMaxStart := 0, maxMult := 0,
        sc := py_div sa v, mult := 0 } := by
  unfold setupAxis
  rw [if_pos h]

lemma setupAxis_active (sa ea v : ℚ) (hv : 0 < v) (h : ea - sa ≠ 0) :
    (setupAxis sa ea v).step ≠ 0 ∧ 0 < (setupAxis sa ea v).tDelta ∧
    (setupAxis sa ea v).tMaxStart = (setupAxis sa ea v).tMax ∧
    (setupAxis sa ea v).mult = 0 ∧ 0 < (setupAxis sa ea v).tMax := by
  have hfr : ∀ x : ℚ, py_mod x 1 = Int.fract x := fun x => by
    rw [py_mod_eq_fract x 1 one_ne_zero, div_one, one_mul]
  rcases lt_or_gt_of_ne h with hneg | hpos
  · have hnlt : ¬(0 < ea - sa) := not_lt.mpr (le_of_lt hneg)
    have htd : 0 < ((-1 : ℤ) : ℚ) * v / (ea - sa) := by
      push_cast
      rw [neg_mul, neg_div, one_mul]
      have hq : v / (ea - sa) < 0 := div_neg_of_pos_of_neg hv hneg
      linarith
    have htm : 0 < ((-1 : ℤ) : ℚ) * v / (ea - sa) *
        (1 - py_mod (((-1 : ℤ) : ℚ) * (sa / v)) 1) := by
      apply mul_pos htd
      rw [hfr]
      have := Int.fract_lt_one (((-1 : ℤ) : ℚ) * (sa / v))
      linarith
    simp only [setupAxis, if_neg h, if_neg hnlt]
    split
    · exact ⟨by norm_num, htd, rfl, rfl, htm⟩
    · exact ⟨by norm_num, htd, rfl, rfl, htm⟩
  · have htd : 0 < ((1 : ℤ) : ℚ) * v / (ea - sa) := by
      push_cast
      rw [one_mul]
      exact div_pos hv hpos
    have htm : 0 < ((1 : ℤ) : ℚ) * v / (ea - sa) *
        (1 - py_mod (((1 : ℤ) : ℚ) * (sa / v)) 1) := by
      apply mul_pos htd
      rw [hfr]
      have := Int.fract_lt_one (((1 : ℤ) : ℚ) * (sa / v))
      linarith
    simp only [setupAxis, if_neg h, if_pos hpos]
    split
    · exact ⟨by norm_num, htd, rfl, rfl, htm⟩
    · exact ⟨by norm_num, htd, rfl, rfl, htm⟩

lemma exists_active_of_nonzero (s e : Pt3)
    (hnz : ¬((e 0 - s 0 = 0) ∧ (e 1 - s 1 = 0) ∧ (e 2 - s 2 = 0))) :
    ∃ i : Fin 3, e i - s i ≠ 0 := by
  by_contra hall
  push_neg at hall
  exact hnz ⟨hall 0, hall 1, hall 2⟩

lemma setupAxes_apply (s e : Pt3) (v : ℚ) (i : Fin 3) :
    setupAxes s e v i = setupAxis (s i) (e i) v := rfl

lemma walkInv_setup (s e : Pt3) (v : ℚ) (hv : 0 < v)
    (hnz : ¬((e 0 - s 0 = 0) ∧ (e 1 - s 1 = 0) ∧ (e 2 - s 2 = 0))) :
    WalkInv (setupAxes s e v) := by
  refine ⟨?_, ?_, ?_⟩
  · rcases exists_active_of_nonzero s e hnz with ⟨i, hi⟩
    refine ⟨i, ?_⟩
    rw [setupAxes_apply]
    exact (setupAxis_active (s i) (e i) v hv hi).1
  · intro i hi
    rw [setupAxes_apply] at hi ⊢
    by_cases hd : e i - s i = 0
    · rw [setupAxis_inactive _ _ _ hd] at hi
      exact absurd rfl hi
    · exact (setupAxis_active (s i) (e i) v hv hd).2.1
  · intro i
    rw [setupAxes_apply]
    by_cases hd : e i - s i = 0
    · rw [setupAxis_inactive _ _ _ hd]
      norm_num
    · rcases setupAxis_active (s i) (e i) v hv hd with ⟨-, -, hts, hm, -⟩
      rw [hts, hm]
      norm_num

lemma minValOf_setup_pos (s e : Pt3) (v : ℚ) (hv : 0 < v) :
    0 < minValOf (setupAxes s e v) := by
  have hax : ∀ i : Fin 3, (0 : WithTop ℚ) < tMaxW (setupAxes s e v i) := by
    intro i
    rw [setupAxes_apply]
    by_cases hd : e i - s i = 0
    · rw [setupAxis_inactive _ _ _ hd, tMaxW]
      norm_num
    · rcases setupAxis_active (s i) (e i) v hv hd with ⟨hs, -, -, -, htm⟩
      rw [tMaxW, if_neg hs]
      exact_mod_cast htm
  exact lt_min (lt_min (hax 0) (hax 1)) (hax 2)

lemma walkLoop_kind12 {σ : Type} (visit : Voxel → σ → σ × Bool) (fuel : ℕ)
    (axes : Fin 3 → AxisState) (st : σ) :
    ∀ e ∈ (walkLoop visit fuel axes st).2, e.kind = 1 ∨ e.kind = 2 := by
  induction fuel generalizing axes st with
  | zero => simp [walkLoop]
  | succ fuel ih =>
    have hfacts := loopBody_facts visit axes st
    rcases hb : loopBody visit axes st with ⟨st', es, cont⟩
    rw [hb] at hfacts
    simp only at hfacts
    cases cont with
    | none =>
      rw [walkLoop, hb]
      exact fun e he => (hfacts.1 e he).2
    | some a' =>
      rcases hfacts.2.2.2 a' rfl with ⟨rfl, -⟩
      have hres : walkLoop visit (fuel + 1) axes st =
          ((walkLoop visit fuel (stepUpdate axes) st').1,
            es ++ (walkLoop visit fuel (stepUpdate axes) st').2) := by
        rw [walkLoop, hb]
      rw [hres]
      intro e he
      rcases List.mem_append.mp he with h | h
      · exact (hfacts.1 e h).2
      · exact ih _ st' e h

lemma walk_voxels_zero {σ : Type} (s e : Pt3) (v : ℚ)
    (visit : Voxel → σ → σ × Bool) (st : σ)
    (h : (e 0 - s 0 = 0) ∧ (e 1 - s 1 = 0) ∧ (e 2 - s 2 = 0)) :
    walk_voxels s e v visit st = (st, []) := by
  unfold walk_voxels
  rw [if_pos h]

lemma walk_voxels_one {σ : Type} (s e : Pt3) (v : ℚ)
    (visit : Voxel → σ → σ × Bool) (st : σ)
    (hnz : ¬((e 0 - s 0 = 0) ∧ (e 1 - s 1 = 0) ∧ (e 2 - s 2 = 0)))
    (hse : voxel_of_point s v = voxel_of_point e v) :
    walk_voxels s e v visit st =
      ((visit (voxel_of_point s v) st).1,
        [⟨voxel_of_point s v, 0, 0, (visit (voxel_of_point s v) st).2⟩]) := by
  simp only [walk_voxels]
  rw [if_neg hnz, if_pos hse]

lemma walk_voxels_two {σ : Type} (s e : Pt3) (v : ℚ)
    (visit : Voxel → σ → σ × Bool) (st : σ)
    (hnz : ¬((e 0 - s 0 = 0) ∧ (e 1 - s 1 = 0) ∧ (e 2 - s 2 = 0)))
    (hse : voxel_of_point s v ≠ voxel_of_point e v)
    (hcur : curOf (setupAxes s e v) = voxel_of_point e v) :
    walk_voxels s e v visit st =
      ((visit (curOf (setupAxes s e v)) (visit (voxel_of_point s v) st).1).1,
        [⟨voxel_of_point s v, 0, 0, (visit (voxel_of_point s v) st).2⟩,
          ⟨curOf (setupAxes s e v), 0, 0,
            (visit (curOf (setupAxes s e v)) (visit (voxel_of_point s v) st).1).2⟩]) := by
  simp only [walk_voxels]
  rw [if_neg hnz, if_neg hse, if_pos hcur]

lemma walk_voxels_loop {σ : Type} (s e : Pt3) (v : ℚ)
    (visit : Voxel → σ → σ × Bool) (st : σ)
    (hnz : ¬((e 0 - s 0 = 0) ∧ (e 1 - s 1 = 0) ∧ (e 2 - s 2 = 0)))
    (hse : voxel_of_point s v ≠ voxel_of_point e v)
    (hcur : curOf (setupAxes s e v) ≠ voxel_of_point e v) :
    walk_voxels s e v visit st =
      ((walkLoop visit (walkFuel (setupAxes s e v)) (setupAxes s e v)
          (visit (curOf (setupAxes s e v)) (visit (voxel_of_point s v) st).1).1).1,
        ⟨voxel_of_point s v, 0, 0, (visit (voxel_of_point s v) st).2⟩ ::
        ⟨curOf (setupAxes s e v), 0, 0,
          (visit (curOf (setupAxes s e v)) (visit (voxel_of_point s v) st).1).2⟩ ::
        (walkLoop visit (walkFuel (setupAxes s e v)) (setupAxes s e v)
          (visit (curOf (setupAxes s e v)) (visit (voxel_of_point s v) st).1).1).2) := by
  simp only [walk_voxels]
  rw [if_neg hnz, if_neg hse, if_neg hcur]

/-- C3 (amended): for every ray with positive voxel size, the walker first
delivers the start voxel and then the (possibly corner-corrected) start
voxel, both stamped `t = 0` and with the visitor's answers ignored; from the
third delivery on, an answer *stop* ends the walk immediately (no further
delivery); the crossing stamps are nondecreasing along the whole trace, and
strictly increasing along the regular (non-grace) loop deliveries. -/
theorem claim_C3 {σ : Type} (s e : Pt3) (v : ℚ) (hv : 0 < v)
    (visit : Voxel → σ → σ × Bool) (st : σ) :
    (∀ (pre : List Visit) (mid : Visit) (post : List Visit),
      (walk_voxels s e v visit st).2 = pre ++ mid :: post →
      2 ≤ pre.length → mid.resp = false → post = []) ∧
    (∀ (idx : ℕ) (h : idx < (walk_voxels s e v visit st).2.length),
      ((walk_voxels s e v visit st).2.get ⟨idx, h⟩).kind = 0 ↔ idx < 2) ∧
    (∀ x ∈ (walk_voxels s e v visit st).2, x.kind = 0 → x.t = 0) ∧
    List.Chain' (fun a b => a.t ≤ b.t) (walk_voxels s e v visit st).2 ∧
    List.Chain' (fun a b => a.t < b.t)
      ((walk_voxels s e v visit st).2.filter (fun x => x.kind == 2)) := by
  by_cases hnz : (e 0 - s 0 = 0) ∧ (e 1 - s 1 = 0) ∧ (e 2 - s 2 = 0)
  · rw [walk_voxels_zero s e v visit st hnz]
    refine ⟨?_, ?_, ?_, ?_, ?_⟩
    · intro pre mid post habs
      exact absurd habs (by simp)
    · intro idx h
      simp at h
    · intro x hx
      simp at hx
    · exact List.chain'_nil
    · exact List.chain'_nil
  · by_cases hse : voxel_of_point s v = voxel_of_point e v
    · rw [walk_voxels_one s e v visit st hnz hse]
      refine ⟨?_, ?_, ?_, ?_, ?_⟩
      · intro pre mid post habs hlen
        have := congrArg List.length habs
        simp at this
        omega
      · intro idx h
        simp only [List.length_singleton] at h
        have h0 : idx = 0 := by omega
        subst h0
        simp
      · intro x hx
        simp only [List.mem_singleton] at hx
        subst hx
        intro
        rfl
      · exact List.chain'_singleton _
      · exact chain'_of_short _ _ (by simp)
    · by_cases hcur : curOf (setupAxes s e v) = voxel_of_point e v
      · rw [walk_voxels_two s e v visit st hnz hse hcur]
        refine ⟨?_, ?_, ?_, ?_, ?_⟩
        · intro pre mid post habs hlen
          have := congrArg List.length habs
          simp at this
          omega
        · intro idx h
          simp only [List.length_cons, List.length_singleton] at h
          match idx, h with
          | 0, _ => simp
          | 1, _ => simp
        · intro x hx
          simp only [List.mem_cons, List.mem_singleton] at hx
          rcases hx with rfl | rfl | habs
          · intro; rfl
          · intro; rfl
          · exact absurd habs (by simp)
        · rw [List.chain'_cons']
          refine ⟨?_, List.chain'_singleton _⟩
          intro y hy
          simp only [List.head?_cons, Option.mem_some_iff] at hy
          subst hy
          exact le_refl _
        · exact chain'_of_short _ _ (by simp)
      · rw [walk_voxels_loop s e v visit st hnz hse hcur]
        have hinv := walkInv_setup s e v hv hnz
        have hmin0 := minValOf_setup_pos s e v hv
        set A := setupAxes s e v with hA
        set st1 := (visit (curOf A) (visit (voxel_of_point s v) st).1).1 with hst1
        have hmono := walkLoop_mono visit (walkFuel A) A st1 hinv
        have hstop := walkLoop_stopLast visit (walkFuel A) A st1
        have hkinds := walkLoop_kind12 visit (walkFuel A) A st1
        set ltr := (walkLoop visit (walkFuel A) A st1).2 with hltr
        have hgt0 : ∀ x ∈ ltr, (0 : WithTop ℚ) < x.t :=
          fun x hx => lt_of_lt_of_le hmin0 (hmono.1 x hx)
        refine ⟨?_, ?_, ?_, ?_, ?_⟩
        · intro pre mid post habs hlen
          match pre, habs with
          | a :: b :: pre', habs =>
            rcases List.cons.inj habs with ⟨-, habs2⟩
            rcases List.cons.inj habs2 with ⟨-, habs3⟩
            exact hstop pre' mid post habs3
        · intro idx h
          match idx with
          | 0 => simp
          | 1 => simp
          | (n + 2) =>
            simp only [List.length_cons] at h
            have hn : n < ltr.length := by omega
            rw [List.get_eq_getElem]
            simp only [List.getElem_cons_succ]
            rcases hkinds _ (List.getElem_mem hn) with h1 | h1
            · constructor
              · intro hk
                rw [hk] at h1
                exact absurd h1 (by norm_num)
              · intro hlt
                omega
            · constructor
              · intro hk
                rw [hk] at h1
                exact absurd h1 (by norm_num)
              · intro hlt
                omega
        · intro x hx
          rcases List.mem_cons.mp hx with rfl | hx2
          · intro; rfl
          · rcases List.mem_cons.mp hx2 with rfl | hx3
            · intro; rfl
            · intro hk
              rcases hkinds x hx3 with h1 | h2
              · rw [hk] at h1; exact absurd h1 (by norm_num)
              · rw [hk] at h2; exact absurd h2 (by norm_num)
        · rw [List.chain'_cons']
          refine ⟨fun y hy => ?_, ?_⟩
          · simp only [List.head?_cons, Option.mem_some_iff] at hy
            subst hy
            exact le_refl _
          · rw [List.chain'_cons']
            refine ⟨fun y hy => ?_, hmono.2.1⟩
            rcases ltr with - | ⟨z, ltr'⟩
            · simp at hy
            · simp only [List.head?_cons, Option.mem_some_iff] at hy
              subst hy
              exact le_of_lt (hgt0 z (by simp))
        · have hf : (Visit.mk (voxel_of_point s v) 0 0 (visit (voxel_of_point s v) st).2 ::
              Visit.mk (curOf A) 0 0 (visit (curOf A) (visit (voxel_of_point s v) st).1).2 ::
              ltr).filter (fun x => x.kind == 2) = ltr.filter (fun x => x.kind == 2) := by
            rw [List.filter_cons_of_neg (by norm_num), List.filter_cons_of_neg (by norm_num)]
          rw [hf]
          exact hmono.2.2


/-! ### Concrete evaluation of one walker run -/

lemma cex_pd1 : py_div (1/2 : ℚ) 1 = 0 := by
  rw [py_div_eq_floor _ _ one_ne_zero]; norm_num

lemma cex_pd2 : py_div (5/2 : ℚ) 1 = 2 := by
  rw [py_div_eq_floor _ _ one_ne_zero]; norm_num

lemma cex_ax0 : setupAxis (1/2 : ℚ) (5/2) 1 = axA := by
  have hpm : py_mod (1/2 : ℚ) 1 = 1/2 := by
    rw [py_mod_eq_fract _ _ one_ne_zero]
    norm_num [Int.fract]
  simp only [setupAxis, cex_pd1, cex_pd2, axA]
  norm_num [hpm]

lemma cex_axI : setupAxis (1/2 : ℚ) (1/2) 1 = axI := by
  rw [setupAxis_inactive _ _ _ (by norm_num), axI, cex_pd1]

lemma cex_setup : setupAxes cexStart cexEnd 1 = ![axA, axI, axI] := by
  funext i
  rw [setupAxes_apply]
  fin_cases i
  · show setupAxis (cexStart 0) (cexEnd 0) 1 = axA
    rw [show cexStart 0 = 1/2 from rfl, show cexEnd 0 = 5/2 from rfl]
    exact cex_ax0
  · show setupAxis (cexStart 1) (cexEnd 1) 1 = axI
    rw [show cexStart 1 = 1/2 from rfl, show cexEnd 1 = 1/2 from rfl]
    exact cex_axI
  · show setupAxis (cexStart 2) (cexEnd 2) 1 = axI
    rw [show cexStart 2 = 1/2 from rfl, show cexEnd 2 = 1/2 from rfl]
    exact cex_axI

lemma cex_minVal : minValOf ![axA, axI, axI] = ((1/4 : ℚ) : WithTop ℚ) := by
  show min (min (tMaxW axA) (tMaxW axI)) (tMaxW axI) = _
  rw [show tMaxW axA = ((1/4 : ℚ) : WithTop ℚ) from by
      rw [tMaxW, if_neg (by norm_num [axA])]
      rfl,
    show tMaxW axI = ⊤ from by rw [tMaxW, if_pos (by rfl)]]
  rw [min_eq_left le_top, min_eq_left le_top]

lemma cex_stepA : stepAxis axA = axA1 := by
  simp only [stepAxis, axA, axA1, AxisState.mk.injEq]
  norm_num

lemma cex_st0 : steppedOf ![axA, axI, axI] 0 = true := by
  unfold steppedOf
  rw [cex_minVal]
  simp [tMaxW, axA]

lemma cex_st1 : steppedOf ![axA, axI, axI] 1 = false := by
  unfold steppedOf
  rw [cex_minVal]
  simp [tMaxW, axI]

lemma cex_st2 : steppedOf ![axA, axI, axI] 2 = false := by
  unfold steppedOf
  rw [cex_minVal]
  simp [tMaxW, axI]

lemma cex_upd : stepUpdate ![axA, axI, axI] = ![axA1, axI, axI] := by
  funext i
  unfold stepUpdate
  fin_cases i
  · show (if steppedOf ![axA, axI, axI] 0 then stepAxis axA else axA) = axA1
    rw [cex_st0, if_pos rfl, cex_stepA]
  · show (if steppedOf ![axA, axI, axI] 1 then stepAxis axI else axI) = axI
    rw [cex_st1]
    simp
  · show (if steppedOf ![axA, axI, axI] 2 then stepAxis axI else axI) = axI
    rw [cex_st2]
    simp

lemma cex_curU : curOf ![axA1, axI, axI] = ![1, 0, 0] := by
  funext i
  unfold curOf
  fin_cases i
  · show axA1.sc + (axA1.mult : ℤ) * axA1.step = 1
    norm_num [axA1]
  · show axI.sc + (axI.mult : ℤ) * axI.step = 0
    norm_num [axI]
  · show axI.sc + (axI.mult : ℤ) * axI.step = 0
    norm_num [axI]

lemma cex_body : loopBody cexVisitor ![axA, axI, axI] () =
    ((), [⟨![1, 0, 0], ((1/4 : ℚ) : WithTop ℚ), 2, false⟩], none) := by
  simp only [loopBody, cex_upd, cex_minVal, cex_st0, cex_st1, cex_st2, cex_curU]
  norm_num
  rw [if_neg ?hover]
  case hover =>
    rintro (h | h)
    · simp only [overranAxis, maxMultW, axA1] at h
      norm_num [WithTop.coe_lt_coe] at h
    · simp only [overranAxis] at h
      simp at h
  simp [cexVisitor]

lemma cex_fuel : walkFuel ![axA, axI, axI] = 6 := rfl

lemma cex_loop : walkLoop cexVisitor 6 ![axA, axI, axI] () =
    ((), [⟨![1, 0, 0], ((1/4 : ℚ) : WithTop ℚ), 2, false⟩]) := by
  rw [show (6 : ℕ) = 5 + 1 from rfl, walkLoop, cex_body]

lemma cex_cur0 : curOf ![axA, axI, axI] = (fun _ => 0) := by
  funext i
  unfold curOf
  fin_cases i
  · show axA.sc + (axA.mult : ℤ) * axA.step = 0
    norm_num [axA]
  · show axI.sc + (axI.mult : ℤ) * axI.step = 0
    norm_num [axI]
  · show axI.sc + (axI.mult : ℤ) * axI.step = 0
    norm_num [axI]

lemma cex_vs : voxel_of_point cexStart 1 = (fun _ => 0) := by
  funext i
  unfold voxel_of_point cexStart
  exact cex_pd1

lemma cex_ve0 : voxel_of_point cexEnd 1 0 = 2 := by
  unfold voxel_of_point
  rw [show cexEnd 0 = 5/2 from rfl]
  exact cex_pd2

theorem claim_C3_counterexample :
    ((walk_voxels cexStart cexEnd 1 cexVisitor ()).2.map Visit.resp) =
      [false, false, false] ∧
    ((walk_voxels cexStart cexEnd 1 cexVisitor ()).2.map Visit.vox) =
      [fun _ => 0, fun _ => 0, ![1, 0, 0]] := by
  have hnz : ¬((cexEnd 0 - cexStart 0 = 0) ∧ (cexEnd 1 - cexStart 1 = 0) ∧
      (cexEnd 2 - cexStart 2 = 0)) := by
    rintro ⟨h1, -, -⟩
    rw [show cexEnd 0 = 5/2 from rfl, show cexStart 0 = 1/2 from rfl] at h1
    norm_num at h1
  have hse : voxel_of_point cexStart 1 ≠ voxel_of_point cexEnd 1 := by
    intro h
    have h0 := congrFun h 0
    rw [cex_vs, cex_ve0] at h0
    norm_num at h0
  have hcur : curOf (setupAxes cexStart cexEnd 1) ≠ voxel_of_point cexEnd 1 := by
    intro h
    rw [cex_setup, cex_cur0] at h
    have h0 := congrFun h 0
    rw [cex_ve0] at h0
    norm_num at h0
  rw [walk_voxels_loop cexStart cexEnd 1 cexVisitor () hnz hse hcur]
  rw [cex_setup]
  rw [cex_fuel, cex_loop, cex_cur0, cex_vs]
  constructor
  · rfl
  · rfl

/-- Witness for C3 at a concrete positive voxel size and trivial ray. -/
theorem claim_C3_witness :
    (0 : ℚ) < 1 ∧
    ((∀ (pre : List Visit) (mid : Visit) (post : List Visit),
      (walk_voxels (fun _ => 0) (fun _ => 0) 1 (fun _ (u : Unit) => (u, true)) ()).2 =
        pre ++ mid :: post →
      2 ≤ pre.length → mid.resp = false → post = []) ∧
    (∀ (idx : ℕ)
      (h : idx < (walk_voxels (fun _ => 0) (fun _ => 0) 1
        (fun _ (u : Unit) => (u, true)) ()).2.length),
      ((walk_voxels (fun _ => 0) (fun _ => 0) 1
        (fun _ (u : Unit) => (u, true)) ()).2.get ⟨idx, h⟩).kind = 0 ↔ idx < 2) ∧
    (∀ x ∈ (walk_voxels (fun _ => 0) (fun _ => 0) 1
        (fun _ (u : Unit) => (u, true)) ()).2, x.kind = 0 → x.t = 0) ∧
    List.Chain' (fun a b => a.t ≤ b.t)
      (walk_voxels (fun _ => 0) (fun _ => 0) 1 (fun _ (u : Unit) => (u, true)) ()).2 ∧
    List.Chain' (fun a b => a.t < b.t)
      ((walk_voxels (fun _ => 0) (fun _ => 0) 1
        (fun _ (u : Unit) => (u, true)) ()).2.filter (fun x => x.kind == 2))) :=
  ⟨by norm_num, claim_C3 (fun _ => 0) (fun _ => 0) 1 (by norm_num)
    (fun _ (u : Unit) => (u, true)) ()⟩

lemma floor_mul_le (x v : ℚ) (hv : 0 < v) : (⌊x / v⌋ : ℚ) * v ≤ x := by
  have h := Int.floor_le (x / v)
  calc (⌊x / v⌋ : ℚ) * v ≤ (x / v) * v := by
        apply mul_le_mul_of_nonneg_right h (le_of_lt hv)
    _ = x := by field_simp

lemma lt_floor_succ_mul (x v : ℚ) (hv : 0 < v) : x < ((⌊x / v⌋ : ℚ) + 1) * v := by
  have h := Int.lt_floor_add_one (x / v)
  have h2 : (x / v) * v < ((⌊x / v⌋ : ℚ) + 1) * v :=
    mul_lt_mul_of_pos_right h hv
  calc x = (x / v) * v := by field_simp
    _ < _ := h2

lemma self_eq_floor_add_fract_mul (x v : ℚ) (hv : 0 < v) :
    x = (⌊x / v⌋ : ℚ) * v + Int.fract (x / v) * v := by
  have h : Int.fract (x / v) = x / v - ⌊x / v⌋ := rfl
  rw [h]
  field_simp
  ring

lemma fract_neg_zero_iff (x : ℚ) : Int.fract (-x) = 0 ↔ Int.fract x = 0 := by
  constructor
  · intro h
    by_contra hne
    rw [Int.fract_neg hne] at h
    have := Int.fract_lt_one x
    linarith
  · intro h
    have hx : x = (⌊x⌋ : ℚ) := by
      have h2 : Int.fract x = x - ⌊x⌋ := rfl
      rw [h2] at h
      linarith
    rw [hx, ← Int.cast_neg, Int.fract_intCast]

/-- The central geometric lemma: the initialised axis constants satisfy the
boundary-parameter bounds used by the end-reaching argument. -/
lemma setupAxis_static (sa ea v : ℚ) (hv : 0 < v) (h : ea - sa ≠ 0) :
    AxisStatic (setupAxis sa ea v) (py_div ea v) := by
  have hvne : v ≠ 0 := ne_of_gt hv
  have hfr : ∀ x : ℚ, py_mod x 1 = Int.fract x := fun x => by
    rw [py_mod_eq_fract x 1 one_ne_zero, div_one, one_mul]
  have hecf := py_div_eq_floor ea v hvne
  have hscf := py_div_eq_floor sa v hvne
  have heu : (⌊ea / v⌋ : ℚ) * v ≤ ea := floor_mul_le ea v hv
  have heo : ea < ((⌊ea / v⌋ : ℚ) + 1) * v := lt_floor_succ_mul ea v hv
  have hsa : sa = (⌊sa / v⌋ : ℚ) * v + Int.fract (sa / v) * v :=
    self_eq_floor_add_fract_mul sa v hv
  have hF0 := Int.fract_nonneg (sa / v)
  have hF1 := Int.fract_lt_one (sa / v)
  rcases lt_or_gt_of_ne h with hneg | hpos
  · -- step = -1
    have hnlt : ¬(0 < ea - sa) := not_lt.mpr (le_of_lt hneg)
    have hd : 0 < sa - ea := by linarith
    have hdne : sa - ea ≠ 0 := ne_of_gt hd
    have htd : ((-1 : ℤ) : ℚ) * v / (ea - sa) = v / (sa - ea) := by
      have hflip : sa - ea = -(ea - sa) := by ring
      rw [hflip, div_neg]
      push_cast
      ring
    have htdpos : 0 < v / (sa - ea) := div_pos hv hd
    have harg : ((-1 : ℤ) : ℚ) * (sa / v) = -(sa / v) := by push_cast; ring
    have hmono : ⌊ea / v⌋ ≤ ⌊sa / v⌋ := by
      apply Int.floor_le_floor
      gcongr
      linarith
    simp only [setupAxis, if_neg h, if_neg hnlt, hecf, hscf]
    split
    · -- corner-corrected branch
      rename_i hcorner
      have htmeq := hcorner.2.1
      have hfz : Int.fract (-(sa / v)) = 0 := by
        rw [hfr, harg] at htmeq
        have hprod : ((-1 : ℤ) : ℚ) * v / (ea - sa) * Int.fract (-(sa / v)) = 0 := by
          linarith [htmeq]
        rcases mul_eq_zero.mp hprod with h0 | h0
        · rw [htd] at h0
          exact absurd h0 (ne_of_gt htdpos)
        · exact h0
      have hFz : Int.fract (sa / v) = 0 := (fract_neg_zero_iff (sa / v)).mp hfz
      have hsa0 := hsa
      rw [hFz] at hsa0
      have hsaz : sa = (⌊sa / v⌋ : ℚ) * v := by linarith
      have hlt : ⌊ea / v⌋ < ⌊sa / v⌋ := by
        rw [Int.floor_lt, div_lt_iff hv, ← hsaz]
        linarith
      unfold AxisStatic
      rw [if_neg (by norm_num)]
      simp only []
      refine ⟨Or.inr (by norm_num), by rw [htd]; exact htdpos, by push_cast; ring, by omega,
        ?_, ?_, by norm_num⟩
      · intro m hm1 hm2
        rw [hfr, harg, hfz] at htmeq ⊢
        constructor
        · -- entry ≤ 1 (we prove the strict version below; weak follows)
          have hmle : (m : ℚ) ≤ (⌊sa / v⌋ : ℚ) - (⌊ea / v⌋ : ℚ) - 1 := by
            have : m ≤ ⌊sa / v⌋ - ⌊ea / v⌋ - 1 := by
              have := hm2
              push_cast at this ⊢
              omega
            exact_mod_cast this
          rw [htd]
          have hexp : v / (sa - ea) * (1 - 0) + ((m : ℚ) - 1) * (v / (sa - ea)) =
              v * (m : ℚ) / (sa - ea) := by
            field_simp
            ring
          rw [hexp, div_le_one hd]
          have hkey : ((⌊ea / v⌋ : ℚ) + 1) * v ≤ ((⌊sa / v⌋ : ℚ) - (m : ℚ)) * v := by
            apply mul_le_mul_of_nonneg_right _ (le_of_lt hv)
            linarith
          linarith [heo, hsaz]
        · intro _
          have hmle : (m : ℚ) ≤ (⌊sa / v⌋ : ℚ) - (⌊ea / v⌋ : ℚ) - 1 := by
            have : m ≤ ⌊sa / v⌋ - ⌊ea / v⌋ - 1 := by
              have := hm2
              push_cast at this ⊢
              omega
            exact_mod_cast this
          rw [htd]
          have hexp : v / (sa - ea) * (1 - 0) + ((m : ℚ) - 1) * (v / (sa - ea)) =
              v * (m : ℚ) / (sa - ea) := by
            field_simp
            ring
          rw [hexp, div_lt_one hd]
          have hkey : ((⌊ea / v⌋ : ℚ) + 1) * v ≤ ((⌊sa / v⌋ : ℚ) - (m : ℚ)) * v := by
            apply mul_le_mul_of_nonneg_right _ (le_of_lt hv)
            linarith
          linarith [heo, hsaz]
      · -- exit bound: 1 ≤ tMaxStart + maxMult * tDelta
        rw [hfr, harg, hfz, htd]
        have hexp : v / (sa - ea) * (1 - 0) +
            (((⌊ea / v⌋ - ⌊sa / v⌋) * (-1) - 1 : ℤ) : ℚ) * (v / (sa - ea)) =
            v * ((⌊sa / v⌋ : ℚ) - (⌊ea / v⌋ : ℚ)) / (sa - ea) := by
          push_cast
          field_simp
          ring
        rw [hexp, le_div_iff hd]
        linarith [heu, hsaz]
    · -- negative, uncorrected branch
      rename_i hncorner
      have hFne : Int.fract (sa / v) ≠ 0 := by
        intro hFz
        have hfz : Int.fract (-(sa / v)) = 0 := (fract_neg_zero_iff (sa / v)).mpr hFz
        have hsa0 := hsa
        rw [hFz] at hsa0
        have hsaz : sa = (⌊sa / v⌋ : ℚ) * v := by linarith
        have hlt : ⌊ea / v⌋ < ⌊sa / v⌋ := by
          rw [Int.floor_lt, div_lt_iff hv, ← hsaz]
          linarith
        apply hncorner
        refine ⟨trivial, ?_, by omega⟩
        rw [hfr, harg, hfz]
        ring
      have hfneg : Int.fract (-(sa / v)) = 1 - Int.fract (sa / v) :=
        Int.fract_neg hFne
      unfold AxisStatic
      rw [if_neg (by norm_num)]
      simp only []
      refine ⟨Or.inr (by norm_num), by rw [htd]; exact htdpos, by push_cast; ring, by
          push_cast; omega, ?_, ?_, by norm_num⟩
      · intro m hm1 hm2
        have hmle : (m : ℚ) ≤ (⌊sa / v⌋ : ℚ) - (⌊ea / v⌋ : ℚ) := by
          have hm2' : m ≤ ⌊sa / v⌋ - ⌊ea / v⌋ := by
            have := hm2
            push_cast at this
            omega
          exact_mod_cast hm2'
        rw [hfr, harg, hfneg, htd]
        have hexp : v / (sa - ea) * (1 - (1 - Int.fract (sa / v))) +
            ((m : ℚ) - 1) * (v / (sa - ea)) =
            v * (Int.fract (sa / v) + (m : ℚ) - 1) / (sa - ea) := by
          field_simp
          ring
        rw [hexp]
        constructor
        · rw [div_le_one hd]
          have hkey : ((⌊ea / v⌋ : ℚ) + 1) * v ≤
              ((⌊sa / v⌋ : ℚ) - (m : ℚ) + 1) * v := by
            apply mul_le_mul_of_nonneg_right _ (le_of_lt hv)
            linarith
          linarith [heo, hsa]
        · intro _
          rw [div_lt_one hd]
          have hkey : ((⌊ea / v⌋ : ℚ) + 1) * v ≤
              ((⌊sa / v⌋ : ℚ) - (m : ℚ) + 1) * v := by
            apply mul_le_mul_of_nonneg_right _ (le_of_lt hv)
            linarith
          linarith [heo, hsa]
      · rw [hfr, harg, hfneg, htd]
        have hexp : v / (sa - ea) * (1 - (1 - Int.fract (sa / v))) +
            (((⌊ea / v⌋ - ⌊sa / v⌋) * (-1) : ℤ) : ℚ) * (v / (sa - ea)) =
            v * (Int.fract (sa / v) + (⌊sa / v⌋ : ℚ) - (⌊ea / v⌋ : ℚ)) /
              (sa - ea) := by
          push_cast
          ring
        rw [hexp, le_div_iff hd]
        linarith [heu, hsa]
  · -- step = +1
    have hd : 0 < ea - sa := hpos
    have htd : ((1 : ℤ) : ℚ) * v / (ea - sa) = v / (ea - sa) := by push_cast; ring
    have htdpos : 0 < v / (ea - sa) := div_pos hv hd
    have harg : ((1 : ℤ) : ℚ) * (sa / v) = sa / v := by push_cast; ring
    have hmono : ⌊sa / v⌋ ≤ ⌊ea / v⌋ := by
      apply Int.floor_le_floor
      gcongr
      linarith
    simp only [setupAxis, if_neg h, if_pos hpos, hecf, hscf]
    split
    · rename_i hcorner
      exact absurd hcorner.1 (by norm_num)
    · unfold AxisStatic
      rw [if_neg (by norm_num)]
      refine ⟨Or.inl (by norm_num), by rw [htd]; exact htdpos, by push_cast; ring, by
          push_cast; omega, ?_, ?_, ?_⟩
      · intro m hm1 hm2
        have hmle : (m : ℚ) ≤ (⌊ea / v⌋ : ℚ) - (⌊sa / v⌋ : ℚ) := by
          have hm2' : m ≤ ⌊ea / v⌋ - ⌊sa / v⌋ := by
            have := hm2
            push_cast at this
            omega
          exact_mod_cast hm2'
        rw [hfr, harg, htd]
        have hexp : v / (ea - sa) * (1 - Int.fract (sa / v)) +
            ((m : ℚ) - 1) * (v / (ea - sa)) =
            v * ((m : ℚ) - Int.fract (sa / v)) / (ea - sa) := by
          field_simp
          ring
        rw [hexp]
        constructor
        · rw [div_le_one hd]
          have hkey : ((⌊sa / v⌋ : ℚ) + (m : ℚ)) * v ≤ (⌊ea / v⌋ : ℚ) * v := by
            apply mul_le_mul_of_nonneg_right _ (le_of_lt hv)
            linarith
          linarith [heu, hsa]
        · intro habs
          norm_num at habs
      · rw [hfr, harg, htd]
        have hexp : v / (ea - sa) * (1 - Int.fract (sa / v)) +
            (((⌊ea / v⌋ - ⌊sa / v⌋) * 1 : ℤ) : ℚ) * (v / (ea - sa)) =
            v * ((⌊ea / v⌋ : ℚ) - (⌊sa / v⌋ : ℚ) + 1 - Int.fract (sa / v)) /
              (ea - sa) := by
          push_cast
          field_simp
          ring
        rw [hexp, le_div_iff hd]
        linarith [heo, hsa]
      · intro _
        rw [hfr, harg, htd]
        have hexp : v / (ea - sa) * (1 - Int.fract (sa / v)) +
            (((⌊ea / v⌋ - ⌊sa / v⌋) * 1 : ℤ) : ℚ) * (v / (ea - sa)) =
            v * ((⌊ea / v⌋ : ℚ) - (⌊sa / v⌋ : ℚ) + 1 - Int.fract (sa / v)) /
              (ea - sa) := by
          push_cast
          field_simp
          ring
        rw [hexp, lt_div_iff hd]
        linarith [heo, hsa]

lemma minValOf_attained (axes : Fin 3 → AxisState) :
    ∃ i : Fin 3, tMaxW (axes i) = minValOf axes := by
  unfold minValOf
  rcases min_cases (min (tMaxW (axes 0)) (tMaxW (axes 1))) (tMaxW (axes 2)) with
    ⟨h1, -⟩ | ⟨h1, -⟩
  · rcases min_cases (tMaxW (axes 0)) (tMaxW (axes 1)) with ⟨h2, -⟩ | ⟨h2, -⟩
    · exact ⟨0, by rw [h1, h2]⟩
    · exact ⟨1, by rw [h1, h2]⟩
  · exact ⟨2, by rw [h1]⟩

lemma stepped_is_active (axes : Fin 3 → AxisState)
    (hact : ∃ i, (axes i).step ≠ 0) (i : Fin 3)
    (hs : steppedOf axes i = true) : (axes i).step ≠ 0 := by
  intro h0
  have heq : tMaxW (axes i) = minValOf axes := of_decide_eq_true hs
  rw [tMaxW, if_pos h0] at heq
  have hlt := minValOf_lt_top axes hact
  rw [← heq] at hlt
  exact absurd hlt (lt_irrefl ⊤)

lemma exists_stepped_active (axes : Fin 3 → AxisState)
    (hact : ∃ i, (axes i).step ≠ 0) :
    ∃ i, steppedOf axes i = true ∧ (axes i).step ≠ 0 := by
  rcases minValOf_attained axes with ⟨i, hi⟩
  have hs : steppedOf axes i = true := decide_eq_true hi
  exact ⟨i, hs, stepped_is_active axes hact i hs⟩

/-- The heart of the tie analysis: if some stepping axis is already at its
`maxMult` while another active axis is still below, then the iteration
happens exactly at segment parameter 1, every below-max active axis steps
into its end cell with a positive step, and every at-max stepping axis has
a negative step. -/
lemma atmax_analysis (axes : Fin 3 → AxisState) (ev : Voxel)
    (hstat : ∀ i, AxisStatic (axes i) (ev i)) (hdyn : ∀ i, AxisDyn (axes i))
    (j : Fin 3) (hjs : steppedOf axes j = true) (hja : (axes j).step ≠ 0)
    (hjmax : ((axes j).mult : ℤ) = (axes j).maxMult)
    (b : Fin 3) (hba : (axes b).step ≠ 0)
    (hbb : ((axes b).mult : ℤ) < (axes b).maxMult) :
    minValOf axes = ((1 : ℚ) : WithTop ℚ) ∧
    (∀ i, (axes i).step ≠ 0 → ((axes i).mult : ℤ) < (axes i).maxMult →
      steppedOf axes i = true ∧ ((axes i).mult : ℤ) + 1 = (axes i).maxMult ∧
      (axes i).step = 1) ∧
    (∀ i, (axes i).step ≠ 0 → steppedOf axes i = true →
      ((axes i).mult : ℤ) = (axes i).maxMult → (axes i).step = -1) := by
  have hstatA : ∀ i, (axes i).step ≠ 0 →
      ((axes i).step = 1 ∨ (axes i).step = -1) ∧ 0 < (axes i).tDelta ∧
      (axes i).sc + (axes i).maxMult * (axes i).step = ev i ∧
      0 ≤ (axes i).maxMult ∧
      (∀ m : ℤ, 1 ≤ m → m ≤ (axes i).maxMult →
        (axes i).tMaxStart + ((m : ℚ) - 1) * (axes i).tDelta ≤ 1 ∧
        ((axes i).step = -1 →
          (axes i).tMaxStart + ((m : ℚ) - 1) * (axes i).tDelta < 1)) ∧
      1 ≤ (axes i).tMaxStart + ((axes i).maxMult : ℚ) * (axes i).tDelta ∧
      ((axes i).step = 1 →
        1 < (axes i).tMaxStart + ((axes i).maxMult : ℚ) * (axes i).tDelta) := by
    intro i hi
    have := hstat i
    unfold AxisStatic at this
    rw [if_neg hi] at this
    exact this
  -- the entry-crossing value of any below-max active axis
  have hentry : ∀ i, (axes i).step ≠ 0 → ((axes i).mult : ℤ) < (axes i).maxMult →
      (axes i).tMax ≤ 1 ∧ ((axes i).step = -1 → (axes i).tMax < 1) := by
    intro i hi hlt
    have hst := hstatA i hi
    have hb1 := hst.2.2.2.2.1 (((axes i).mult : ℤ) + 1) (by omega) (by omega)
    have hcast : ((((axes i).mult : ℤ) + 1 : ℤ) : ℚ) - 1 = ((axes i).mult : ℚ) := by
      push_cast
      ring
    rw [hcast] at hb1
    rw [(hdyn i).1]
    exact hb1
  -- the at-max stepping axis sits at its exit crossing, which is ≥ 1
  have hexitj : 1 ≤ (axes j).tMax := by
    have hst := hstatA j hja
    have hcast : (((axes j).mult : ℕ) : ℚ) = (((axes j).maxMult : ℤ) : ℚ) := by
      exact_mod_cast hjmax
    rw [(hdyn j).1, hcast]
    exact hst.2.2.2.2.2.1
  have hminj : minValOf axes = ((axes j).tMax : WithTop ℚ) := by
    have heq : tMaxW (axes j) = minValOf axes := of_decide_eq_true hjs
    rw [tMaxW, if_neg hja] at heq
    exact heq.symm
  have hminleb : minValOf axes ≤ ((axes b).tMax : WithTop ℚ) := by
    have := minValOf_le_tMaxW axes b
    rw [tMaxW, if_neg hba] at this
    exact this
  have hjb : (axes j).tMax ≤ (axes b).tMax := by
    rw [hminj] at hminleb
    exact_mod_cast hminleb
  have hble : (axes b).tMax ≤ 1 := (hentry b hba hbb).1
  have hj1 : (axes j).tMax = 1 := le_antisymm (le_trans hjb hble) hexitj
  have hmin1 : minValOf axes = ((1 : ℚ) : WithTop ℚ) := by rw [hminj, hj1]
  refine ⟨hmin1, ?_, ?_⟩
  · intro i hi hlt
    have hle1 := (hentry i hi hlt).1
    have hge1 : (1 : ℚ) ≤ (axes i).tMax := by
      have := minValOf_le_tMaxW axes i
      rw [tMaxW, if_neg hi, hmin1] at this
      exact_mod_cast this
    have heq1 : (axes i).tMax = 1 := le_antisymm hle1 hge1
    have hstep : steppedOf axes i = true := by
      apply decide_eq_true
      rw [tMaxW, if_neg hi, heq1, hmin1]
    have hst := hstatA i hi
    refine ⟨hstep, ?_, ?_⟩
    · by_contra hne
      have hlt2 : ((axes i).mult : ℤ) + 2 ≤ (axes i).maxMult := by omega
      have hb2 := (hst.2.2.2.2.1 (((axes i).mult : ℤ) + 2) (by omega) hlt2).1
      have hcast : ((((axes i).mult : ℤ) + 2 : ℤ) : ℚ) - 1 =
          ((axes i).mult : ℚ) + 1 := by
        push_cast
        ring
      rw [hcast] at hb2
      have htm := (hdyn i).1
      have hd := hst.2.1
      nlinarith [htm, heq1, hb2, hd]
    · rcases hst.1 with h1 | hm1
      · exact h1
      · exfalso
        have hb1 := (hentry i hi hlt).2 hm1
        rw [heq1] at hb1
        exact absurd hb1 (lt_irrefl 1)
  · intro i hi his himax
    rcases (hstatA i hi).1 with h1 | hm1
    · exfalso
      have hstrict := (hstatA i hi).2.2.2.2.2.2 h1
      have hcast : (((axes i).mult : ℕ) : ℚ) = (((axes i).maxMult : ℤ) : ℚ) := by
        exact_mod_cast himax
      have htm := (hdyn i).1
      have heqmin : tMaxW (axes i) = minValOf axes := of_decide_eq_true his
      rw [tMaxW, if_neg hi, hmin1] at heqmin
      have h1' : (axes i).tMax = 1 := by exact_mod_cast heqmin
      rw [htm, hcast] at h1'
      linarith
    · exact hm1

lemma pair_stepped_true (f : Fin 3 → Bool) (j b : Fin 3) (hj : f j = true)
    (hb : f b = true) (hne : j ≠ b) :
    ((f 0 && f 1) || (f 1 && f 2) || (f 0 && f 2)) = true := by
  fin_cases j <;> fin_cases b <;> simp_all

lemma sign_exists_true (g : Fin 3 → ℤ) (z : ℤ) (j : Fin 3) (h : g j = z) :
    (decide (g 0 = z) || decide (g 1 = z) || decide (g 2 = z)) = true := by
  fin_cases j <;> simp_all

lemma stepUpdate_of_stepped (axes : Fin 3 → AxisState) (i : Fin 3)
    (h : steppedOf axes i = true) : stepUpdate axes i = stepAxis (axes i) := by
  unfold stepUpdate
  rw [if_pos h]

lemma stepUpdate_of_unstepped (axes : Fin 3 → AxisState) (i : Fin 3)
    (h : ¬ steppedOf axes i = true) : stepUpdate axes i = axes i := by
  unfold stepUpdate
  rw [if_neg h]

lemma stepAxis_mult (a : AxisState) : (stepAxis a).mult = a.mult + 1 := rfl

lemma stepAxis_sc (a : AxisState) : (stepAxis a).sc = a.sc := rfl

lemma stepAxis_maxMult (a : AxisState) : (stepAxis a).maxMult = a.maxMult := rfl

lemma maxMultW_active (a : AxisState) (h : a.step ≠ 0) :
    maxMultW a = (a.maxMult : WithTop ℤ) := by
  rw [maxMultW, if_neg h]

/-- In the configuration of `atmax_analysis`, each axis passes its
corner-repair bounds check, and adding the repair offset to the updated
voxel coordinate lands exactly on the end cell. -/
lemma grace_lands_on_end (axes : Fin 3 → AxisState) (ev : Voxel)
    (hstat : ∀ i, AxisStatic (axes i) (ev i)) (hdyn : ∀ i, AxisDyn (axes i))
    (hact : ∃ i, (axes i).step ≠ 0)
    (hC2 : ∀ i, (axes i).step ≠ 0 → ((axes i).mult : ℤ) < (axes i).maxMult →
      steppedOf axes i = true ∧ ((axes i).mult : ℤ) + 1 = (axes i).maxMult ∧
      (axes i).step = 1)
    (hC3 : ∀ i, (axes i).step ≠ 0 → steppedOf axes i = true →
      ((axes i).mult : ℤ) = (axes i).maxMult → (axes i).step = -1) :
    ∀ i : Fin 3, ∃ d : ℤ,
      graceCheckAxis (stepUpdate axes i) (steppedOf axes i) = some d ∧
      curOf (stepUpdate axes) i + d = ev i := by
  intro i
  have hsceq : (axes i).step ≠ 0 →
      (axes i).sc + (axes i).maxMult * (axes i).step = ev i := by
    intro hi
    have := hstat i
    unfold AxisStatic at this
    rw [if_neg hi] at this
    exact this.2.2.1
  by_cases hsi : steppedOf axes i = true
  · have hia := stepped_is_active axes hact i hsi
    have hle := (hdyn i).2 hia
    by_cases himax : ((axes i).mult : ℤ) = (axes i).maxMult
    · -- at-max stepping axis: step = -1, check allows maxMult+1, offset 1
      have hneg := hC3 i hia hsi himax
      refine ⟨1, ?_, ?_⟩
      · rw [stepUpdate_of_stepped axes i hsi]
        unfold graceCheckAxis
        rw [if_pos hsi]
        rw [if_pos (by rw [stepAxis_step, hneg]; norm_num)]
        rw [if_neg ?hchk]
        case hchk =>
          rw [stepAxis_mult, maxMultW_active _ (by rw [stepAxis_step]; exact hia),
            stepAxis_maxMult]
          rw [not_lt, ← WithTop.coe_one, ← WithTop.coe_add, WithTop.coe_le_coe]
          push_cast
          omega
      · unfold curOf
        rw [stepUpdate_of_stepped axes i hsi, stepAxis_sc, stepAxis_mult,
          stepAxis_step]
        have := hsceq hia
        rw [hneg] at this ⊢
        push_cast
        omega
    · -- below-max stepping axis: step = +1, lands exactly on maxMult
      have hlt : ((axes i).mult : ℤ) < (axes i).maxMult := lt_of_le_of_ne hle himax
      rcases hC2 i hia hlt with ⟨-, hone, hpos⟩
      refine ⟨0, ?_, ?_⟩
      · rw [stepUpdate_of_stepped axes i hsi]
        unfold graceCheckAxis
        rw [if_pos hsi]
        rw [if_neg (by rw [stepAxis_step, hpos]; norm_num)]
        rw [if_neg ?hchk2]
        case hchk2 =>
          rw [stepAxis_mult, maxMultW_active _ (by rw [stepAxis_step]; exact hia),
            stepAxis_maxMult]
          rw [not_lt, WithTop.coe_le_coe]
          push_cast
          omega
      · unfold curOf
        rw [stepUpdate_of_stepped axes i hsi, stepAxis_sc, stepAxis_mult,
          stepAxis_step]
        have := hsceq hia
        rw [hpos] at this ⊢
        push_cast
        omega
  · -- unstepped axis: offset 0; it is inactive or already at its end cell
    refine ⟨0, ?_, ?_⟩
    · unfold graceCheckAxis
      rw [if_neg hsi]
    · unfold curOf
      rw [stepUpdate_of_unstepped axes i hsi]
      by_cases hia : (axes i).step = 0
      · have := hstat i
        unfold AxisStatic at this
        rw [if_pos hia] at this
        rw [hia, this]
        ring
      · have hle := (hdyn i).2 hia
        have hmax : ((axes i).mult : ℤ) = (axes i).maxMult := by
          by_contra hne
          have hlt : ((axes i).mult : ℤ) < (axes i).maxMult := lt_of_le_of_ne hle hne
          exact hsi (hC2 i hia hlt).1
        have := hsceq hia
        rw [← hmax] at this
        omega

/-- When a stepping axis is at `maxMult` while another active axis is still
below, the iteration's corner-repair delivery is exactly the end voxel. -/
lemma loopBody_hits_end {σ : Type} (visit : Voxel → σ → σ × Bool)
    (hvis : ∀ V st, (visit V st).2 = true)
    (axes : Fin 3 → AxisState) (st : σ) (ev : Voxel)
    (hstat : ∀ i, AxisStatic (axes i) (ev i)) (hdyn : ∀ i, AxisDyn (axes i))
    (hact : ∃ i, (axes i).step ≠ 0)
    (j : Fin 3) (hjs : steppedOf axes j = true) (hja : (axes j).step ≠ 0)
    (hjmax : ((axes j).mult : ℤ) = (axes j).maxMult)
    (b : Fin 3) (hba : (axes b).step ≠ 0)
    (hbb : ((axes b).mult : ℤ) < (axes b).maxMult) :
    ev ∈ (loopBody visit axes st).2.1.map Visit.vox := by
  rcases atmax_analysis axes ev hstat hdyn j hjs hja hjmax b hba hbb with
    ⟨hmin1, hC2, hC3⟩
  rcases hC2 b hba hbb with ⟨hbs, hbone, hbpos⟩
  have hjneg : (axes j).step = -1 := hC3 j hja hjs hjmax
  have hjb : j ≠ b := by
    intro h
    rw [h] at hjmax
    omega
  rcases grace_lands_on_end axes ev hstat hdyn hact hC2 hC3 with hgrace
  rcases hgrace 0 with ⟨d0, hg0, hadd0⟩
  rcases hgrace 1 with ⟨d1, hg1, hadd1⟩
  rcases hgrace 2 with ⟨d2, hg2, hadd2⟩
  have hpair := pair_stepped_true (steppedOf axes) j b hjs hbs hjb
  have hplus : (decide ((stepUpdate axes 0).step = 1) ||
      decide ((stepUpdate axes 1).step = 1) ||
      decide ((stepUpdate axes 2).step = 1)) = true := by
    apply sign_exists_true (fun i => (stepUpdate axes i).step) 1 b
    rw [stepUpdate_step]
    exact hbpos
  have hminus : (decide ((stepUpdate axes 0).step = -1) ||
      decide ((stepUpdate axes 1).step = -1) ||
      decide ((stepUpdate axes 2).step = -1)) = true := by
    apply sign_exists_true (fun i => (stepUpdate axes i).step) (-1) j
    rw [stepUpdate_step]
    exact hjneg
  have haddv : (fun i => curOf (stepUpdate axes) i + ![d0, d1, d2] i) = ev := by
    funext i
    fin_cases i
    · simpa using hadd0
    · simpa using hadd1
    · simpa using hadd2
  simp only [loopBody, hpair, hplus, hminus, Bool.and_self, Bool.true_and,
    Bool.and_true, if_true]
  rw [hg0, hg1, hg2]
  simp only [hvis, if_true]
  rw [haddv]
  split
  · simp
  · simp only [hvis, if_true]
    simp

lemma graceCheckAxis_some (a : AxisState) (h : a.step ≠ 0)
    (hle : (a.mult : ℤ) ≤ a.maxMult) :
    ∃ d : ℤ, graceCheckAxis a true = some d := by
  unfold graceCheckAxis
  rw [if_pos rfl, maxMultW_active a h]
  by_cases hneg : a.step < 0
  · rw [if_pos hneg, if_neg]
    · exact ⟨1, rfl⟩
    · rw [gt_iff_lt, ← WithTop.coe_one, ← WithTop.coe_add, WithTop.coe_lt_coe]
      omega
  · rw [if_neg hneg, if_neg]
    · exact ⟨0, rfl⟩
    · rw [gt_iff_lt, WithTop.coe_lt_coe]
      omega

lemma graceCheckAxis_unstepped (a : AxisState) :
    graceCheckAxis a false = some 0 := by
  simp [graceCheckAxis]

/-- When no stepping axis has yet reached its `maxMult`, the iteration
neither breaks nor stops: it continues with the advanced axes, and the
updated current voxel is among the iteration's deliveries. -/
lemma loopBody_continues {σ : Type} (visit : Voxel → σ → σ × Bool)
    (hvis : ∀ V st, (visit V st).2 = true)
    (axes : Fin 3 → AxisState) (st : σ)
    (hact : ∃ i, (axes i).step ≠ 0)
    (hnomax : ∀ i, steppedOf axes i = true →
      ((axes i).mult : ℤ) < (axes i).maxMult) :
    (loopBody visit axes st).2.2 = some (stepUpdate axes) ∧
    curOf (stepUpdate axes) ∈ (loopBody visit axes st).2.1.map Visit.vox := by
  have hgc : ∀ i : Fin 3, ∃ d : ℤ,
      graceCheckAxis (stepUpdate axes i) (steppedOf axes i) = some d := by
    intro i
    by_cases hs : steppedOf axes i = true
    · have hia : (axes i).step ≠ 0 := stepped_is_active axes hact i hs
      have hlt := hnomax i hs
      rw [hs, stepUpdate_of_stepped axes i hs]
      apply graceCheckAxis_some
      · rw [stepAxis_step]
        exact hia
      · rw [stepAxis_mult, stepAxis_maxMult]
        push_cast
        omega
    · have hs' : steppedOf axes i = false := by
        rcases Bool.eq_false_or_eq_true (steppedOf axes i) with h | h
        · exact absurd h hs
        · exact h
      rw [hs']
      exact ⟨0, graceCheckAxis_unstepped _⟩
  have hovkey : ∀ i : Fin 3,
      ¬ overranAxis (stepUpdate axes i) (steppedOf axes i) := by
    intro i hov
    rcases hov with ⟨hs, hgt⟩
    have hia : (axes i).step ≠ 0 := stepped_is_active axes hact i hs
    have hlt := hnomax i hs
    rw [stepUpdate_of_stepped axes i hs] at hgt
    have hia' : (stepAxis (axes i)).step ≠ 0 := by
      rw [stepAxis_step]
      exact hia
    rw [maxMultW_active _ hia', stepAxis_maxMult, stepAxis_mult,
      gt_iff_lt, WithTop.coe_lt_coe] at hgt
    push_cast at hgt
    omega
  have hov : ¬ (overranAxis (stepUpdate axes 0) (steppedOf axes 0) ∨
      overranAxis (stepUpdate axes 1) (steppedOf axes 1) ∨
      overranAxis (stepUpdate axes 2) (steppedOf axes 2)) := by
    intro h
    rcases h with h | h | h
    exacts [hovkey 0 h, hovkey 1 h, hovkey 2 h]
  rcases hgc 0 with ⟨d0, hg0⟩
  rcases hgc 1 with ⟨d1, hg1⟩
  rcases hgc 2 with ⟨d2, hg2⟩
  simp only [loopBody]
  split
  · rw [hg0, hg1, hg2]
    simp only [hvis, if_true, if_neg hov]
    exact ⟨by trivial, by simp⟩
  · simp only [if_neg hov, hvis, if_true]
    exact ⟨by trivial, by simp⟩

lemma maxMult_nonneg_of_active (a : AxisState) (e : ℤ) (hstat : AxisStatic a e)
    (h : a.step ≠ 0) : 0 ≤ a.maxMult := by
  unfold AxisStatic at hstat
  rw [if_neg h] at hstat
  exact hstat.2.2.2.1

lemma axisStatic_stepUpdate (axes : Fin 3 → AxisState) (ev : Voxel)
    (hstat : ∀ i, AxisStatic (axes i) (ev i)) :
    ∀ i, AxisStatic (stepUpdate axes i) (ev i) := by
  intro i
  by_cases hs : steppedOf axes i = true
  · rw [stepUpdate_of_stepped axes i hs]
    exact hstat i
  · rw [stepUpdate_of_unstepped axes i hs]
    exact hstat i

lemma axisDyn_stepUpdate (axes : Fin 3 → AxisState)
    (hdyn : ∀ i, AxisDyn (axes i))
    (hnomax : ∀ i, steppedOf axes i = true →
      ((axes i).mult : ℤ) < (axes i).maxMult) :
    ∀ i, AxisDyn (stepUpdate axes i) := by
  intro i
  by_cases hs : steppedOf axes i = true
  · rw [stepUpdate_of_stepped axes i hs]
    refine ⟨rfl, ?_⟩
    intro _
    rw [stepAxis_mult, stepAxis_maxMult]
    have := hnomax i hs
    push_cast
    omega
  · rw [stepUpdate_of_unstepped axes i hs]
    exact hdyn i

lemma cur_end_axis (a : AxisState) (e : ℤ) (hstat : AxisStatic a e)
    (hdyn : AxisDyn a)
    (hz : (if a.step = 0 then 0 else a.maxMult.toNat - a.mult) = 0) :
    a.sc + a.mult * a.step = e := by
  by_cases h0 : a.step = 0
  · unfold AxisStatic at hstat
    rw [if_pos h0] at hstat
    rw [h0, mul_zero, add_zero]
    exact hstat
  · unfold AxisStatic at hstat
    rw [if_neg h0] at hstat
    rw [if_neg h0] at hz
    have hle := hdyn.2 h0
    have hnn := hstat.2.2.2.1
    have hsc := hstat.2.2.1
    have hmeq : (a.mult : ℤ) = a.maxMult := by omega
    rw [hmeq]
    exact hsc

lemma cur_end_of_phi_zero (axes : Fin 3 → AxisState) (ev : Voxel)
    (hstat : ∀ i, AxisStatic (axes i) (ev i)) (hdyn : ∀ i, AxisDyn (axes i))
    (hz : PhiOf axes = 0) : curOf axes = ev := by
  have hterm : ∀ i : Fin 3,
      (if (axes i).step = 0 then 0
        else (axes i).maxMult.toNat - (axes i).mult) = 0 := by
    unfold PhiOf at hz
    have h0 : (if (axes 0).step = 0 then 0
        else (axes 0).maxMult.toNat - (axes 0).mult) = 0 := by omega
    have h1 : (if (axes 1).step = 0 then 0
        else (axes 1).maxMult.toNat - (axes 1).mult) = 0 := by omega
    have h2 : (if (axes 2).step = 0 then 0
        else (axes 2).maxMult.toNat - (axes 2).mult) = 0 := by omega
    intro i
    fin_cases i
    · exact h0
    · exact h1
    · exact h2
  funext i
  exact cur_end_axis (axes i) (ev i) (hstat i) (hdyn i) (hterm i)

lemma phiOf_decreases (axes : Fin 3 → AxisState) (ev : Voxel)
    (hstat : ∀ i, AxisStatic (axes i) (ev i))
    (hact : ∃ i, (axes i).step ≠ 0)
    (hnomax : ∀ i, steppedOf axes i = true →
      ((axes i).mult : ℤ) < (axes i).maxMult) :
    PhiOf (stepUpdate axes) < PhiOf axes := by
  obtain ⟨j, hjs, hja⟩ := exists_stepped_active axes hact
  have hterm : ∀ i : Fin 3,
      (if (stepUpdate axes i).step = 0 then 0
        else (stepUpdate axes i).maxMult.toNat - (stepUpdate axes i).mult) ≤
      (if (axes i).step = 0 then 0
        else (axes i).maxMult.toNat - (axes i).mult) := by
    intro i
    by_cases h0 : (axes i).step = 0
    · have h0' : (stepUpdate axes i).step = 0 := by
        rw [stepUpdate_step]
        exact h0
      rw [if_pos h0, if_pos h0']
    · have h0' : (stepUpdate axes i).step ≠ 0 := by
        rw [stepUpdate_step]
        exact h0
      rw [if_neg h0, if_neg h0']
      by_cases hs : steppedOf axes i = true
      · rw [stepUpdate_of_stepped axes i hs, stepAxis_maxMult, stepAxis_mult]
        omega
      · rw [stepUpdate_of_unstepped axes i hs]
  have hstrict :
      (if (stepUpdate axes j).step = 0 then 0
        else (stepUpdate axes j).maxMult.toNat - (stepUpdate axes j).mult) <
      (if (axes j).step = 0 then 0
        else (axes j).maxMult.toNat - (axes j).mult) := by
    have h0' : (stepUpdate axes j).step ≠ 0 := by
      rw [stepUpdate_step]
      exact hja
    rw [if_neg hja, if_neg h0', stepUpdate_of_stepped axes j hjs,
      stepAxis_maxMult, stepAxis_mult]
    have hlt := hnomax j hjs
    have hnn : 0 ≤ (axes j).maxMult :=
      maxMult_nonneg_of_active (axes j) (ev j) (hstat j) hja
    omega
  have hj3 : j = 0 ∨ j = 1 ∨ j = 2 := by
    fin_cases j
    · exact Or.inl rfl
    · exact Or.inr (Or.inl rfl)
    · exact Or.inr (Or.inr rfl)
  have ht0 := hterm 0
  have ht1 := hterm 1
  have ht2 := hterm 2
  unfold PhiOf
  rcases hj3 with rfl | rfl | rfl
  · omega
  · omega
  · omega

/-- The core of the end-reaching argument: starting from any loop state
whose axes satisfy the static and dynamic invariants and that has not yet
entered the end voxel on every axis, with an always-continuing visitor and
enough fuel, the loop delivers the end voxel. -/
lemma walkLoop_visits_end {σ : Type} (visit : Voxel → σ → σ × Bool)
    (hvis : ∀ V st, (visit V st).2 = true) (ev : Voxel) :
    ∀ (fuel : ℕ) (axes : Fin 3 → AxisState) (st : σ),
    (∀ i, AxisStatic (axes i) (ev i)) → (∀ i, AxisDyn (axes i)) →
    (∃ i, (axes i).step ≠ 0) → 0 < PhiOf axes → PhiOf axes ≤ fuel →
    ev ∈ (walkLoop visit fuel axes st).2.map Visit.vox := by
  intro fuel
  induction fuel with
  | zero =>
    intro axes st _ _ _ hpos hle
    omega
  | succ fuel ih =>
    intro axes st hstat hdyn hact hpos hle
    have hb : ∃ b : Fin 3, (axes b).step ≠ 0 ∧
        ((axes b).mult : ℤ) < (axes b).maxMult := by
      by_contra hno
      push_neg at hno
      unfold PhiOf at hpos
      have h0 : (if (axes 0).step = 0 then 0
          else (axes 0).maxMult.toNat - (axes 0).mult) = 0 := by
        split
        · rfl
        · next h => have := hno 0 h; omega
      have h1 : (if (axes 1).step = 0 then 0
          else (axes 1).maxMult.toNat - (axes 1).mult) = 0 := by
        split
        · rfl
        · next h => have := hno 1 h; omega
      have h2 : (if (axes 2).step = 0 then 0
          else (axes 2).maxMult.toNat - (axes 2).mult) = 0 := by
        split
        · rfl
        · next h => have := hno 2 h; omega
      omega
    obtain ⟨b, hba, hbb⟩ := hb
    by_cases hA : ∃ j : Fin 3, steppedOf axes j = true ∧ (axes j).step ≠ 0 ∧
        ((axes j).mult : ℤ) = (axes j).maxMult
    · obtain ⟨j, hjs, hja, hjmax⟩ := hA
      have hmem := loopBody_hits_end visit hvis axes st ev hstat hdyn hact
        j hjs hja hjmax b hba hbb
      rcases hL : loopBody visit axes st with ⟨st', es, o⟩
      rw [hL] at hmem
      have hmem' : ev ∈ es.map Visit.vox := hmem
      cases o with
      | none =>
        rw [walkLoop, hL]
        exact hmem'
      | some axes' =>
        have hres : walkLoop visit (fuel + 1) axes st =
            ((walkLoop visit fuel axes' st').1,
              es ++ (walkLoop visit fuel axes' st').2) := by
          rw [walkLoop, hL]
        rw [hres]
        simp only [List.map_append, List.mem_append]
        exact Or.inl hmem'
    · push_neg at hA
      have hnomax : ∀ i, steppedOf axes i = true →
          ((axes i).mult : ℤ) < (axes i).maxMult := by
        intro i hs
        have hia := stepped_is_active axes hact i hs
        have hle2 := (hdyn i).2 hia
        have hne := hA i hs hia
        omega
      obtain ⟨hcont, hcur⟩ := loopBody_continues visit hvis axes st hact hnomax
      rcases hL : loopBody visit axes st with ⟨st', es, o⟩
      rw [hL] at hcont hcur
      have ho : o = some (stepUpdate axes) := hcont
      subst ho
      have hcur' : curOf (stepUpdate axes) ∈ es.map Visit.vox := hcur
      have hres : walkLoop visit (fuel + 1) axes st =
          ((walkLoop visit fuel (stepUpdate axes) st').1,
            es ++ (walkLoop visit fuel (stepUpdate axes) st').2) := by
        rw [walkLoop, hL]
      rw [hres]
      simp only [List.map_append, List.mem_append]
      have hstat' := axisStatic_stepUpdate axes ev hstat
      have hdyn' := axisDyn_stepUpdate axes hdyn hnomax
      by_cases hz : PhiOf (stepUpdate axes) = 0
      · left
        have hend : curOf (stepUpdate axes) = ev :=
          cur_end_of_phi_zero (stepUpdate axes) ev hstat' hdyn' hz
        rw [← hend]
        exact hcur'
      · right
        have hdec := phiOf_decreases axes ev hstat hact hnomax
        apply ih (stepUpdate axes) st' hstat' hdyn'
        · obtain ⟨i, hi⟩ := hact
          refine ⟨i, ?_⟩
          rw [stepUpdate_step]
          exact hi
        · omega
        · omega

lemma axisStatic_setup (s e : Pt3) (v : ℚ) (hv : 0 < v) :
    ∀ i, AxisStatic (setupAxes s e v i) (voxel_of_point e v i) := by
  intro i
  rw [setupAxes_apply]
  by_cases hd : e i - s i = 0
  · rw [setupAxis_inactive _ _ _ hd]
    unfold AxisStatic
    rw [if_pos rfl]
    show py_div (s i) v = py_div (e i) v
    rw [show e i = s i by linarith]
  · exact setupAxis_static (s i) (e i) v hv hd

lemma axisDyn_setup (s e : Pt3) (v : ℚ) (hv : 0 < v) :
    ∀ i, AxisDyn (setupAxes s e v i) := by
  intro i
  have hstat := axisStatic_setup s e v hv i
  rw [setupAxes_apply] at hstat ⊢
  by_cases hd : e i - s i = 0
  · rw [setupAxis_inactive _ _ _ hd]
    refine ⟨by norm_num, ?_⟩
    intro h
    exact absurd rfl h
  · rcases setupAxis_active (s i) (e i) v hv hd with ⟨hs, -, hts, hm, -⟩
    refine ⟨?_, ?_⟩
    · rw [hts, hm]
      norm_num
    · intro _
      unfold AxisStatic at hstat
      rw [if_neg hs] at hstat
      rw [hm]
      simpa using hstat.2.2.2.1

lemma phiOf_le_walkFuel (axes : Fin 3 → AxisState) :
    PhiOf axes ≤ walkFuel axes := by
  unfold PhiOf walkFuel
  have h0 : (if (axes 0).step = 0 then 0
      else (axes 0).maxMult.toNat - (axes 0).mult) ≤ (axes 0).maxMult.toNat := by
    split
    · omega
    · omega
  have h1 : (if (axes 1).step = 0 then 0
      else (axes 1).maxMult.toNat - (axes 1).mult) ≤ (axes 1).maxMult.toNat := by
    split
    · omega
    · omega
  have h2 : (if (axes 2).step = 0 then 0
      else (axes 2).maxMult.toNat - (axes 2).mult) ≤ (axes 2).maxMult.toNat := by
    split
    · omega
    · omega
  omega

/-- C4: for distinct endpoints and a positive voxel size, the walker's first
delivered voxel is the start cell, and — with a visitor that never stops —
the end cell is among the delivered voxels. -/
theorem claim_C4 {σ : Type} (s e : Pt3) (v : ℚ) (visit : Voxel → σ → σ × Bool)
    (st : σ) (hv : 0 < v) (hse : s ≠ e)
    (hvis : ∀ V t, (visit V t).2 = true) :
    ((walk_voxels s e v visit st).2.map Visit.vox).head? =
      some (voxel_of_point s v) ∧
    voxel_of_point e v ∈ (walk_voxels s e v visit st).2.map Visit.vox := by
  have hnz : ¬((e 0 - s 0 = 0) ∧ (e 1 - s 1 = 0) ∧ (e 2 - s 2 = 0)) := by
    rintro ⟨h0, h1, h2⟩
    apply hse
    have c0 : s 0 = e 0 := by linarith
    have c1 : s 1 = e 1 := by linarith
    have c2 : s 2 = e 2 := by linarith
    funext i
    fin_cases i
    · exact c0
    · exact c1
    · exact c2
  by_cases hsev : voxel_of_point s v = voxel_of_point e v
  · rw [walk_voxels_one s e v visit st hnz hsev]
    refine ⟨rfl, ?_⟩
    rw [← hsev]
    simp
  · by_cases hcur : curOf (setupAxes s e v) = voxel_of_point e v
    · rw [walk_voxels_two s e v visit st hnz hsev hcur]
      refine ⟨rfl, ?_⟩
      rw [← hcur]
      simp
    · rw [walk_voxels_loop s e v visit st hnz hsev hcur]
      refine ⟨rfl, ?_⟩
      have hstat := axisStatic_setup s e v hv
      have hdyn := axisDyn_setup s e v hv
      have hact : ∃ i, (setupAxes s e v i).step ≠ 0 :=
        (walkInv_setup s e v hv hnz).1
      have hpos : 0 < PhiOf (setupAxes s e v) := by
        by_contra hz
        push_neg at hz
        have hz0 : PhiOf (setupAxes s e v) = 0 := by omega
        exact hcur (cur_end_of_phi_zero (setupAxes s e v) (voxel_of_point e v)
          hstat hdyn hz0)
      have hle := phiOf_le_walkFuel (setupAxes s e v)
      have hmem := walkLoop_visits_end visit hvis (voxel_of_point e v)
        (walkFuel (setupAxes s e v)) (setupAxes s e v)
        (visit (curOf (setupAxes s e v)) (visit (voxel_of_point s v) st).1).1
        hstat hdyn hact hpos hle
      simp only [List.map_cons, List.mem_cons]
      right
      right
      exact hmem

theorem claim_C4_witness :
    ((walk_voxels wStart wEnd 1 wVisitor ()).2.map Visit.vox).head? =
      some (voxel_of_point wStart 1) ∧
    voxel_of_point wEnd 1 ∈ (walk_voxels wStart wEnd 1 wVisitor ()).2.map Visit.vox :=
  claim_C4 wStart wEnd 1 wVisitor () (by norm_num)
    (by
      intro h
      have h0 := congrFun h 0
      norm_num [wStart, wEnd] at h0)
    (fun V t => rfl)
